import Mathlib

/-!
# Verification of the Sharemind secret-sharing core

A shallow embedding of `src/sharemind/sharemind.py` (class `SharemindSecret`).

Modelling choices:
* A share triple is a structure with three integer fields `s1, s2, s3 : ℤ` and a
  bit size `size : ℕ`; all ring arithmetic is `ℤ` with explicit `% 2^size`
  (Python's `%` on a positive modulus is `Int.emod`, both non-negative).
* Randomness: `random.randint(0, mod - 1)` is modelled by an ambient stream
  `g : ℕ → ℕ` and a cursor `t : ℕ`; the sample at cursor `t` is `(g t) % mod`.
  As `g` ranges over all streams this produces exactly the values
  `randint(0, mod-1)` can produce, so a theorem quantified over all `g` covers
  every run of the Python code.  Every operation returns its result together
  with the advanced cursor, mirroring the order in which the source draws
  random values.
* `int(math.log(size, 2))` is modelled as `Nat.log 2 size`, which agrees with
  the source on every power of two (and on the small concrete sizes used here).
* Reconstruction proofs go through the ghost map into `ZMod (2^n)`.
-/

/-- A stream of random values; `g t % mod` models `random.randint(0, mod - 1)`. -/
def RS : Type := ℕ → ℕ

/-- `SharemindSecret`: a bit size and the additive share triple
(`self.shares` in the source, always a 3-tuple). -/
structure SharemindSecret where
  size : ℕ
  s1 : ℤ
  s2 : ℤ
  s3 : ℤ
deriving Repr, DecidableEq

namespace SharemindSecret

/-- `self.mod = 2 ** size`. -/
def mod (x : SharemindSecret) : ℤ := ((2 ^ x.size : ℕ) : ℤ)

/-- `numeric_value`: `sum(self.shares) % self.mod`. -/
def numeric_value (x : SharemindSecret) : ℤ := (x.s1 + x.s2 + x.s3) % x.mod

/-- One random sample in `[0, 2^size)`: `random.randint(0, self.mod - 1)`. -/
def sample (g : RS) (t : ℕ) (size : ℕ) : ℤ := ((g t : ℤ)) % ((2 ^ size : ℕ) : ℤ)

/-- `generate_shares(value, size)`: two uniform shares and the correcting third. -/
def generate_shares (g : RS) (value : ℤ) (size : ℕ) (t : ℕ) : (ℤ × ℤ × ℤ) × ℕ :=
  let mod : ℤ := ((2 ^ size : ℕ) : ℤ)
  let a := sample g t size
  let b := sample g (t + 1) size
  let c := (value - a - b) % mod
  ((a, b, c), t + 2)

/-- `SharemindSecret(value=v, size=size)`: construction from a plaintext value
(the in-range assertion is tracked separately by `init_checked`). -/
def fromValue (g : RS) (value : ℤ) (size : ℕ) (t : ℕ) : SharemindSecret × ℕ :=
  let (abc, t') := generate_shares g value size t
  (⟨size, abc.1, abc.2.1, abc.2.2⟩, t')

/-- `re_share()`: rerandomize the triple, preserving its sum mod `2^size`. -/
def re_share (g : RS) (x : SharemindSecret) (t : ℕ) : SharemindSecret × ℕ :=
  let r1 := sample g t x.size
  let r2 := sample g (t + 1) x.size
  let r3 := sample g (t + 2) x.size
  (⟨x.size, (x.s1 + r3 - r1) % x.mod, (x.s2 + r1 - r2) % x.mod,
    (x.s3 + r2 - r3) % x.mod⟩, t + 3)

/-- `__add__`: componentwise sum mod `2^size`, then `re_share`. -/
def add (g : RS) (x y : SharemindSecret) (t : ℕ) : SharemindSecret × ℕ :=
  re_share g ⟨x.size, (x.s1 + y.s1) % x.mod, (x.s2 + y.s2) % x.mod,
    (x.s3 + y.s3) % x.mod⟩ t

/-- `__sub__`: componentwise difference mod `2^size`, then `re_share`. -/
def sub (g : RS) (x y : SharemindSecret) (t : ℕ) : SharemindSecret × ℕ :=
  re_share g ⟨x.size, (x.s1 - y.s1) % x.mod, (x.s2 - y.s2) % x.mod,
    (x.s3 - y.s3) % x.mod⟩ t

/-- `__mul__` with an `int` argument: componentwise scalar product, then `re_share`. -/
def mul_scalar (g : RS) (x : SharemindSecret) (k : ℤ) (t : ℕ) : SharemindSecret × ℕ :=
  re_share g ⟨x.size, (x.s1 * k) % x.mod, (x.s2 * k) % x.mod, (x.s3 * k) % x.mod⟩ t

/-- `__mul__` with a `SharemindSecret` argument: the three-round Sharemind
secure-multiplication protocol (12 samples), then `re_share`. -/
def mul (g : RS) (x y : SharemindSecret) (t : ℕ) : SharemindSecret × ℕ :=
  let u1 := x.s1; let u2 := x.s2; let u3 := x.s3
  let v1 := y.s1; let v2 := y.s2; let v3 := y.s3
  -- Round 1
  let r12 := sample g t x.size
  let r13 := sample g (t + 1) x.size
  let s12 := sample g (t + 2) x.size
  let s13 := sample g (t + 3) x.size
  let r23 := sample g (t + 4) x.size
  let r21 := sample g (t + 5) x.size
  let s23 := sample g (t + 6) x.size
  let s21 := sample g (t + 7) x.size
  let r31 := sample g (t + 8) x.size
  let r32 := sample g (t + 9) x.size
  let s31 := sample g (t + 10) x.size
  let s32 := sample g (t + 11) x.size
  -- Round 2
  let a12 := u1 + r31
  let _b12 := v1 + s31
  let a13 := u1 + r21
  let b13 := v1 + s21
  let a23 := u2 + r12
  let b23 := v2 + s12
  let a21 := u2 + r32
  let b21 := v2 + s32
  let a31 := u3 + r23
  let b31 := v3 + s23
  let _a32 := u3 + r13
  let b32 := v3 + s13
  -- Round 3
  let c1 := u1 * b21 + u1 * b31 + v1 * a21 + v1 * a31 - a12 * b21 - _b12 * a21
    + r12 * s13 + s12 * r13
  let w1 := (c1 + u1 * v1) % x.mod
  let c2 := u2 * b32 + u2 * _b12 + v2 * _a32 + v2 * a12 - a23 * b32 - b23 * _a32
    + r23 * s21 + s23 * r21
  let w2 := (c2 + u2 * v2) % x.mod
  let c3 := u3 * b13 + u3 * b23 + v3 * a13 + v3 * a23 - a31 * b13 - b31 * a13
    + r31 * s32 + s31 * r32
  let w3 := (c3 + u3 * v3) % x.mod
  re_share g ⟨x.size, w1, w2, w3⟩ (t + 12)

/-- `from_binary_shares(shares, size)`: binary-to-arithmetic share conversion
(four rounds; one internal secure multiplication `ab * c`). -/
def from_binary_shares (g : RS) (sh : ℤ × ℤ × ℤ) (size : ℕ) (t : ℕ) :
    SharemindSecret × ℕ :=
  let u : SharemindSecret := ⟨size, sh.1, sh.2.1, sh.2.2⟩
  let mod : ℤ := ((2 ^ size : ℕ) : ℤ)
  -- Round 1
  let r12 := sample g t size
  let r13 := sample g (t + 1) size
  let s12 := sample g (t + 2) size
  let s13 := sample g (t + 3) size
  let s1 := r12 * r13 - s12 - s13
  let r23 := sample g (t + 4) size
  let r21 := sample g (t + 5) size
  let s23 := sample g (t + 6) size
  let s21 := sample g (t + 7) size
  let s2 := r23 * r21 - s23 - s21
  let r31 := sample g (t + 8) size
  let r32 := sample g (t + 9) size
  let s31 := sample g (t + 10) size
  let s32 := sample g (t + 11) size
  let s3 := r31 * r32 - s31 - s32
  -- Round 2
  let u1 := u.s1; let u2 := u.s2; let u3 := u.s3
  let b12 := r31 + u1
  let b13 := r21 + u1
  let b23 := r12 + u2
  let b21 := r32 + u2
  let b31 := r23 + u3
  let b32 := r13 + u3
  let (c, t1) := fromValue g u3 size (t + 12)
  -- Round 3
  let ab1 := s31 - r31 * b21
  let ab2 := b12 * b21 + s32 - b12 * r32
  let ab3 := s3
  let ab : SharemindSecret := ⟨size, ab1 % mod, ab2 % mod, ab3 % mod⟩
  let ac1 := b31 * b13 + s21 - b31 * r21
  let ac2 := s2
  let ac3 := s23 - r23 * b13
  let ac : SharemindSecret := ⟨size, ac1 % mod, ac2 % mod, ac3 % mod⟩
  let bc1 := s1
  let bc2 := s12 - r12 * b32
  let bc3 := b23 * b32 + s13 - b23 * r13
  let bc : SharemindSecret := ⟨size, bc1 % mod, bc2 % mod, bc3 % mod⟩
  let (abc, t2) := mul g ab c t1
  -- Round 4: w = u - ab * 2 - ac * 2 - bc * 2 + abc * 4 (left-to-right)
  let (ab2x, t3) := mul_scalar g ab 2 t2
  let (w1, t4) := sub g u ab2x t3
  let (ac2x, t5) := mul_scalar g ac 2 t4
  let (w2, t6) := sub g w1 ac2x t5
  let (bc2x, t7) := mul_scalar g bc 2 t6
  let (w3, t8) := sub g w2 bc2x t7
  let (abc4x, t9) := mul_scalar g abc 4 t8
  let (w4, t10) := add g w3 abc4x t9
  re_share g w4 t10

end SharemindSecret

namespace SharemindSecret

/-! ## Reconstruction into `ZMod (2^n)` -/

/-- Ghost reconstruction map: the share sum viewed in `ZMod (2^n)`. -/
def reconM (n : ℕ) (x : SharemindSecret) : ZMod (2 ^ n) :=
  ((x.s1 + x.s2 + x.s3 : ℤ) : ZMod (2 ^ n))

lemma two_pow_pos (n : ℕ) : 0 < (2 : ℕ) ^ n := Nat.pos_pow_of_pos n (by norm_num)

instance neZero_two_pow (n : ℕ) : NeZero ((2 : ℕ) ^ n) := ⟨(two_pow_pos n).ne'⟩

lemma intCast_emod_two_pow (a : ℤ) (n : ℕ) :
    ((a % ((2 ^ n : ℕ) : ℤ) : ℤ) : ZMod (2 ^ n)) = (a : ZMod (2 ^ n)) :=
  ZMod.intCast_mod a (2 ^ n)

lemma intCast_emod_two_pow' (a : ℤ) (n : ℕ) :
    ((a % ((2 : ℤ) ^ n) : ℤ) : ZMod (2 ^ n)) = (a : ZMod (2 ^ n)) := by
  have h : ((2 : ℤ) ^ n) = ((2 ^ n : ℕ) : ℤ) := by push_cast; ring
  rw [h, ZMod.intCast_mod]

lemma numeric_value_eq_val (n : ℕ) (x : SharemindSecret) (hx : x.size = n) :
    x.numeric_value = ((reconM n x).val : ℤ) := by
  rw [numeric_value, reconM, mod, hx, ZMod.val_intCast]

lemma numeric_value_nonneg (x : SharemindSecret) : 0 ≤ x.numeric_value := by
  have h : x.mod ≠ 0 := by simp [mod]
  exact Int.emod_nonneg _ h

lemma numeric_value_lt (x : SharemindSecret) : x.numeric_value < ((2 ^ x.size : ℕ) : ℤ) := by
  have h : (0 : ℤ) < ((2 ^ x.size : ℕ) : ℤ) := by exact_mod_cast two_pow_pos x.size
  simpa [numeric_value, mod] using Int.emod_lt_of_pos (x.s1 + x.s2 + x.s3) h

lemma reconM_of_numeric (n : ℕ) (x : SharemindSecret) (hx : x.size = n) :
    reconM n x = ((x.numeric_value : ℤ) : ZMod (2 ^ n)) := by
  rw [numeric_value, mod, hx, ZMod.intCast_mod]
  rfl

/-- Two integers in `[0, 2^n)` with the same image in `ZMod (2^n)` are equal. -/
lemma int_eq_of_cast_eq {n : ℕ} {a b : ℤ} (ha : 0 ≤ a) (ha' : a < ((2 ^ n : ℕ) : ℤ))
    (hb : 0 ≤ b) (hb' : b < ((2 ^ n : ℕ) : ℤ))
    (h : (a : ZMod (2 ^ n)) = (b : ZMod (2 ^ n))) : a = b := by
  have hva := ZMod.val_intCast (n := 2 ^ n) a
  have hvb := ZMod.val_intCast (n := 2 ^ n) b
  rw [h] at hva
  have hab : a % ((2 ^ n : ℕ) : ℤ) = b % ((2 ^ n : ℕ) : ℤ) := by rw [← hva, ← hvb]
  rw [Int.emod_eq_of_lt ha ha', Int.emod_eq_of_lt hb hb'] at hab
  exact hab

/-! ## Reconstruction homomorphism lemmas (for every stream and cursor) -/

lemma re_share_size (g : RS) (x : SharemindSecret) (t : ℕ) :
    (re_share g x t).1.size = x.size := rfl

lemma re_share_reconM (g : RS) (n : ℕ) (x : SharemindSecret) (hx : x.size = n) (t : ℕ) :
    reconM n (re_share g x t).1 = reconM n x := by
  simp only [re_share, reconM, mod, hx]
  push_cast [intCast_emod_two_pow, intCast_emod_two_pow']
  ring

lemma add_size (g : RS) (x y : SharemindSecret) (t : ℕ) :
    (add g x y t).1.size = x.size := rfl

lemma add_reconM (g : RS) (n : ℕ) (x y : SharemindSecret)
    (hx : x.size = n) (t : ℕ) :
    reconM n (add g x y t).1 = reconM n x + reconM n y := by
  simp only [add, re_share, reconM, mod, hx]
  push_cast [intCast_emod_two_pow, intCast_emod_two_pow']
  ring

lemma sub_size (g : RS) (x y : SharemindSecret) (t : ℕ) :
    (sub g x y t).1.size = x.size := rfl

lemma sub_reconM (g : RS) (n : ℕ) (x y : SharemindSecret)
    (hx : x.size = n) (t : ℕ) :
    reconM n (sub g x y t).1 = reconM n x - reconM n y := by
  simp only [sub, re_share, reconM, mod, hx]
  push_cast [intCast_emod_two_pow, intCast_emod_two_pow']
  ring

lemma mul_scalar_size (g : RS) (x : SharemindSecret) (k : ℤ) (t : ℕ) :
    (mul_scalar g x k t).1.size = x.size := rfl

lemma mul_scalar_reconM (g : RS) (n : ℕ) (x : SharemindSecret) (k : ℤ)
    (hx : x.size = n) (t : ℕ) :
    reconM n (mul_scalar g x k t).1 = reconM n x * (k : ZMod (2 ^ n)) := by
  simp only [mul_scalar, re_share, reconM, mod, hx]
  push_cast [intCast_emod_two_pow, intCast_emod_two_pow']
  ring

lemma mul_size (g : RS) (x y : SharemindSecret) (t : ℕ) :
    (mul g x y t).1.size = x.size := rfl

lemma mul_reconM (g : RS) (n : ℕ) (x y : SharemindSecret)
    (hx : x.size = n) (t : ℕ) :
    reconM n (mul g x y t).1 = reconM n x * reconM n y := by
  simp only [mul, re_share, reconM, mod, hx]
  push_cast [intCast_emod_two_pow, intCast_emod_two_pow']
  ring

lemma fromValue_size (g : RS) (v : ℤ) (n : ℕ) (t : ℕ) :
    (fromValue g v n t).1.size = n := rfl

lemma fromValue_reconM (g : RS) (v : ℤ) (n : ℕ) (t : ℕ) :
    reconM n (fromValue g v n t).1 = (v : ZMod (2 ^ n)) := by
  simp only [fromValue, generate_shares, reconM]
  push_cast [intCast_emod_two_pow, intCast_emod_two_pow']
  ring

end SharemindSecret

namespace SharemindSecret

lemma from_binary_shares_size (g : RS) (sh : ℤ × ℤ × ℤ) (n t : ℕ) :
    (from_binary_shares g sh n t).1.size = n := rfl

/-- The reconstruction of `from_binary_shares` is the Sharemind polynomial
`a + b + c − 2ab − 2ac − 2bc + 4abc` of the three input shares (valid for
arbitrary integer inputs; specialised to bits below). -/
lemma from_binary_shares_reconM (g : RS) (sh : ℤ × ℤ × ℤ) (n t : ℕ) :
    reconM n (from_binary_shares g sh n t).1 =
      ((sh.1 + sh.2.1 + sh.2.2 - 2 * (sh.1 * sh.2.1) - 2 * (sh.1 * sh.2.2)
        - 2 * (sh.2.1 * sh.2.2) + 4 * (sh.1 * sh.2.1 * sh.2.2) : ℤ) : ZMod (2 ^ n)) := by
  simp only [from_binary_shares, fromValue, generate_shares, mul, mul_scalar, add, sub,
    re_share, reconM, mod]
  push_cast [intCast_emod_two_pow, intCast_emod_two_pow']
  ring

end SharemindSecret

example : (SharemindSecret.from_binary_shares (fun _ => 0) (1, 1, 1) 4 0).1.numeric_value = 1 := by
  decide

example : (SharemindSecret.from_binary_shares (fun _ => 3) (1, 1, 0) 4 0).1.numeric_value = 0 := by
  decide

example :
    (SharemindSecret.mul (fun _ => 7) ⟨4, 3, 0, 0⟩ ⟨4, 5, 0, 0⟩ 0).1.numeric_value = 15 := by
  decide

namespace SharemindSecret

/-! ## Bitwise protocols (carry-look-ahead addition, bit extraction, GTE) -/

/-- List indexing with a default dummy secret (`xs[i]` in the source; all uses
are in range). -/
def sGet (l : List SharemindSecret) (i : ℕ) : SharemindSecret :=
  l.getD i ⟨0, 0, 0, 0⟩

/-- Thread the random cursor through an index-driven list comprehension. -/
def mapT (f : ℕ → ℕ → SharemindSecret × ℕ) : List ℕ → ℕ → List SharemindSecret × ℕ
  | [], t => ([], t)
  | i :: is, t =>
    let (w, t1) := f i t
    let (ws, t2) := mapT f is t1
    (w :: ws, t2)

/-- `[u * v for u, v in zip(u_bits, v_bits)]` (the `s_flags` initialisation). -/
def mulPairs (g : RS) : List SharemindSecret → List SharemindSecret → ℕ →
    List SharemindSecret × ℕ
  | u :: us, v :: vs, t =>
    let (w, t1) := mul g u v t
    let (ws, t2) := mulPairs g us vs t1
    (w :: ws, t2)
  | _, _, t => ([], t)

/-- `[u + v - s * 2 for u, v, s in zip(...)]` (the `p_flags` initialisation). -/
def pInit (g : RS) : List SharemindSecret → List SharemindSecret →
    List SharemindSecret → ℕ → List SharemindSecret × ℕ
  | u :: us, v :: vs, s :: ss, t =>
    let (uv, t1) := add g u v t
    let (s2x, t2) := mul_scalar g s 2 t1
    let (p, t3) := sub g uv s2x t2
    let (ps, t4) := pInit g us vs ss t3
    (p :: ps, t4)
  | _, _, _, t => ([], t)

/-- The `(i1, i2)` index pairs visited by round `k` of the carry-look-ahead
tree, in source order (`for l: for m:`). -/
def roundPairs (size k : ℕ) : List (ℕ × ℕ) :=
  (List.range (2 ^ k)).flatMap fun l =>
    (List.range (size / 2 ^ (k + 1))).map fun m =>
      (2 ^ k + l + 2 ^ (k + 1) * m, 2 ^ k + 2 ^ (k + 1) * m - 1)

/-- One body execution of the inner tree loop:
`s[i1] = s[i1] + p[i1] * s[i2]; p[i1] = p[i1] * p[i2]`. -/
def treeUpdateA (g : RS) (st : List SharemindSecret × List SharemindSecret × ℕ)
    (pr : ℕ × ℕ) : List SharemindSecret × List SharemindSecret × ℕ :=
  let s := st.1; let p := st.2.1; let t := st.2.2
  let (ps, t1) := mul g (sGet p pr.1) (sGet s pr.2) t
  let (s1, t2) := add g (sGet s pr.1) ps t1
  let s' := s.set pr.1 s1
  let (p1, t3) := mul g (sGet p pr.1) (sGet p pr.2) t2
  let p' := p.set pr.1 p1
  (s', p', t3)

/-- Rounds `2 … log2(size) + 1` of `bitwise_addition`: the whole index tree. -/
def treeA (g : RS) (size : ℕ) (s p : List SharemindSecret) (t : ℕ) :
    List SharemindSecret × List SharemindSecret × ℕ :=
  (List.range (Nat.log 2 size)).foldl
    (fun st k => (roundPairs size k).foldl (treeUpdateA g) st) (s, p, t)

/-- `bitwise_addition(u_bits, v_bits)` (assertions are tracked separately by
`bitwise_addition_checked`). -/
def bitwise_addition (g : RS) (u_bits v_bits : List SharemindSecret) (t : ℕ) :
    List SharemindSecret × ℕ :=
  let size := (sGet u_bits 0).size
  let sf := mulPairs g u_bits v_bits t
  let pf := pInit g u_bits v_bits sf.1 sf.2
  let tr := treeA g size sf.1 pf.1 pf.2
  let w0uv := add g (sGet u_bits 0) (sGet v_bits 0) tr.2.2
  let w0s2 := mul_scalar g (sGet tr.1 0) 2 w0uv.2
  let w0 := sub g w0uv.1 w0s2.1 w0s2.2
  let ws := mapT (fun i t =>
    let uv := add g (sGet u_bits i) (sGet v_bits i) t
    let uvs := add g uv.1 (sGet tr.1 (i - 1)) uv.2
    let sx2 := mul_scalar g (sGet tr.1 i) 2 uvs.2
    sub g uvs.1 sx2.1 sx2.2) (List.range' 1 (size - 1)) w0.2
  (w0.1 :: ws.1, ws.2)

/-- The accumulation loop `for i, bit in enumerate(r_bits): r += bit * 2**i`
of `generate_random_number_and_bits`, with running index `i`. -/
def accumBits (g : RS) (i : ℕ) : List SharemindSecret → SharemindSecret → ℕ →
    SharemindSecret × ℕ
  | [], r, t => (r, t)
  | b :: rest, r, t =>
    let (bi, t1) := mul_scalar g b (2 ^ i) t
    let (r1, t2) := add g r bi t1
    accumBits g (i + 1) rest r1 t2

/-- `generate_random_number_and_bits(size)`: `size` fresh random bit sharings
(three binary samples each, then `from_binary_shares`) and their weighted sum. -/
def generate_random_number_and_bits (g : RS) (size : ℕ) (t : ℕ) :
    (SharemindSecret × List SharemindSecret) × ℕ :=
  let rb := mapT (fun _ t =>
    from_binary_shares g (((g t : ℤ) % 2), ((g (t + 1) : ℤ) % 2), ((g (t + 2) : ℤ) % 2))
      size (t + 3)) (List.range size) t
  let r0 := fromValue g 0 size rb.2
  let r := accumBits g 0 rb.1 r0.1 r0.2
  ((r.1, rb.1), r.2)

/-- `extract_bits()`: mask with a random number, reveal the masked value,
re-share its bits, and add back the random bits. -/
def extract_bits (g : RS) (x : SharemindSecret) (t : ℕ) :
    List SharemindSecret × ℕ :=
  let rrb := generate_random_number_and_bits g x.size t
  let a := sub g x rrb.1.1 rrb.2
  let a_raw_value := a.1.numeric_value
  let a_bits := mapT (fun i t =>
    from_binary_shares g ((a_raw_value / 2 ^ i % 2), 0, 0) x.size t)
    (List.range x.size) a.2
  bitwise_addition g a_bits.1 rrb.1.2 a_bits.2

/-- `__ge__`: `1 - extract_bits(self - other)[-1]`, as a secret. -/
def ge (g : RS) (x y : SharemindSecret) (t : ℕ) : SharemindSecret × ℕ :=
  let d := sub g x y t
  let d_bits := extract_bits g d.1 d.2
  let one := fromValue g 1 x.size d_bits.2
  sub g one.1 (sGet d_bits.1 (d_bits.1.length - 1)) one.2

end SharemindSecret

/-! ## The generate/propagate carry monoid (proof layer for `bitwise_addition`) -/

section GPMonoid

variable {R : Type} [CommRing R]

/-- Combine generate/propagate pairs: high part `x` after low part `y`. -/
def combineGP (x y : R × R) : R × R := (x.1 + x.2 * y.1, x.2 * y.2)

/-- Fold of the base pairs over positions `a, a+1, …, a+len` (high to low). -/
def gpFold (base : ℕ → R × R) (a : ℕ) : ℕ → R × R
  | 0 => base a
  | len + 1 => combineGP (base (a + len + 1)) (gpFold base a len)

lemma combineGP_assoc (x y z : R × R) :
    combineGP (combineGP x y) z = combineGP x (combineGP y z) := by
  simp only [combineGP, Prod.mk.injEq]
  constructor <;> ring

lemma gpFold_append (base : ℕ → R × R) (a len1 len2 : ℕ) :
    combineGP (gpFold base (a + len1 + 1) len2) (gpFold base a len1)
      = gpFold base a (len1 + len2 + 1) := by
  induction len2 with
  | zero => rfl
  | succ m ih =>
    have h1 : gpFold base (a + len1 + 1) (m + 1)
        = combineGP (base (a + len1 + 1 + m + 1)) (gpFold base (a + len1 + 1) m) := rfl
    rw [h1, combineGP_assoc, ih]
    have h3 : a + len1 + 1 + m + 1 = a + (len1 + m + 1) + 1 := by omega
    rw [h3]
    rfl

/-- One execution of the tree-loop body on the proof layer: combine position
`pr.1` with position `pr.2`. -/
def updOnce (st : ℕ → R × R) (pr : ℕ × ℕ) : ℕ → R × R :=
  Function.update st pr.1 (combineGP (st pr.1) (st pr.2))

lemma foldl_updOnce_not_fst (l : List (ℕ × ℕ)) (st : ℕ → R × R) (i : ℕ)
    (hi : ∀ pr ∈ l, pr.1 ≠ i) : (l.foldl updOnce st) i = st i := by
  induction l generalizing st with
  | nil => rfl
  | cons hd tl ih =>
    rw [List.foldl_cons, ih _ (fun pr hpr => hi pr (List.mem_cons_of_mem hd hpr))]
    exact Function.update_noteq (Ne.symm (hi hd (List.mem_cons_self hd tl))) _ st

lemma foldl_updOnce_fst (l : List (ℕ × ℕ)) (st : ℕ → R × R) (i1 i2 : ℕ)
    (hmem : (i1, i2) ∈ l)
    (hfst : l.Pairwise (fun a b => a.1 ≠ b.1))
    (hsnd : ∀ pr ∈ l, ∀ qr ∈ l, pr.1 ≠ qr.2) :
    (l.foldl updOnce st) i1 = combineGP (st i1) (st i2) := by
  induction l generalizing st with
  | nil => exact absurd hmem (List.not_mem_nil _)
  | cons hd tl ih =>
    rw [List.foldl_cons]
    rcases List.mem_cons.mp hmem with heq | htl
    · subst heq
      rw [foldl_updOnce_not_fst tl _ i1
        (fun pr hpr => Ne.symm ((List.pairwise_cons.mp hfst).1 pr hpr))]
      simp [updOnce, Function.update_same]
    · have hne1 : hd.1 ≠ i1 := by
        have := (List.pairwise_cons.mp hfst).1 (i1, i2) htl
        simpa using this
      have hne2 : hd.1 ≠ i2 := by
        have := hsnd hd (List.mem_cons_self hd tl) (i1, i2) (List.mem_cons_of_mem hd htl)
        simpa using this
      rw [ih (updOnce st hd) htl (List.pairwise_cons.mp hfst).2
        (fun pr hpr qr hqr => hsnd pr (List.mem_cons_of_mem hd hpr)
          qr (List.mem_cons_of_mem hd hqr))]
      simp only [updOnce]
      rw [Function.update_noteq (Ne.symm hne1), Function.update_noteq (Ne.symm hne2)]

end GPMonoid

/-! ## Index bookkeeping for the tree rounds -/

namespace SharemindSecret

lemma roundPairs_shape (n k : ℕ) (pr : ℕ × ℕ) (h : pr ∈ roundPairs n k) :
    ∃ l m, l < 2 ^ k ∧ m < n / 2 ^ (k + 1) ∧
      pr.1 = 2 ^ k + l + 2 ^ (k + 1) * m ∧ pr.2 = 2 ^ k + 2 ^ (k + 1) * m - 1 := by
  simp only [roundPairs, List.mem_flatMap, List.mem_map, List.mem_range] at h
  obtain ⟨l, hl, m, hm, hpr⟩ := h
  exact ⟨l, m, hl, hm, by rw [← hpr], by rw [← hpr]⟩

lemma roundPairs_mem (n k i : ℕ) (hdvd : 2 ^ (k + 1) ∣ n) (hi : i < n)
    (hbit : 2 ^ k ≤ i % 2 ^ (k + 1)) :
    (i, 2 ^ (k + 1) * (i / 2 ^ (k + 1)) + 2 ^ k - 1) ∈ roundPairs n k := by
  simp only [roundPairs, List.mem_flatMap, List.mem_map, List.mem_range]
  refine ⟨i % 2 ^ (k + 1) - 2 ^ k, ?_, i / 2 ^ (k + 1), ?_, ?_⟩
  · have h5 : i % 2 ^ (k + 1) < 2 ^ (k + 1) :=
      Nat.mod_lt _ (Nat.pos_pow_of_pos _ (by norm_num))
    have h6 : (2 : ℕ) ^ (k + 1) = 2 * 2 ^ k := by ring
    omega
  · exact Nat.div_lt_div_of_lt_of_dvd hdvd hi
  · have h3 := Nat.div_add_mod i (2 ^ (k + 1))
    have hp : (0 : ℕ) < 2 ^ k := Nat.pos_pow_of_pos _ (by norm_num)
    have e1 : 2 ^ k + (i % 2 ^ (k + 1) - 2 ^ k) + 2 ^ (k + 1) * (i / 2 ^ (k + 1)) = i := by
      omega
    have e2 : 2 ^ k + 2 ^ (k + 1) * (i / 2 ^ (k + 1)) - 1
        = 2 ^ (k + 1) * (i / 2 ^ (k + 1)) + 2 ^ k - 1 := by omega
    rw [e1, e2]

lemma roundPairs_fst_lt (n k : ℕ) (hdvd : 2 ^ (k + 1) ∣ n) :
    ∀ pr ∈ roundPairs n k, pr.1 < n ∧ pr.2 < n ∧ 2 ^ k ≤ pr.1 % 2 ^ (k + 1) := by
  intro pr h
  obtain ⟨l, m, hl, hm, h1, h2⟩ := roundPairs_shape n k pr h
  have hq : (0 : ℕ) < 2 ^ (k + 1) := Nat.pos_pow_of_pos _ (by norm_num)
  have hmul : 2 ^ (k + 1) * (m + 1) ≤ 2 ^ (k + 1) * (n / 2 ^ (k + 1)) :=
    Nat.mul_le_mul_left _ hm
  have hms : 2 ^ (k + 1) * (m + 1) = 2 ^ (k + 1) * m + 2 ^ (k + 1) := Nat.mul_succ _ _
  have hdn : 2 ^ (k + 1) * (n / 2 ^ (k + 1)) = n := Nat.mul_div_cancel' hdvd
  have h6 : (2 : ℕ) ^ (k + 1) = 2 * 2 ^ k := by ring
  refine ⟨by omega, by omega, ?_⟩
  have hmod : (2 ^ k + l + 2 ^ (k + 1) * m) % 2 ^ (k + 1) = (2 ^ k + l) % 2 ^ (k + 1) :=
    Nat.add_mul_mod_self_left _ _ _
  have hlt : 2 ^ k + l < 2 ^ (k + 1) := by omega
  rw [h1, hmod, Nat.mod_eq_of_lt hlt]
  omega

lemma roundPairs_snd_mod (n k : ℕ) :
    ∀ pr ∈ roundPairs n k, pr.2 % 2 ^ (k + 1) = 2 ^ k - 1 := by
  intro pr h
  obtain ⟨l, m, hl, hm, h1, h2⟩ := roundPairs_shape n k pr h
  have h6 : (2 : ℕ) ^ (k + 1) = 2 * 2 ^ k := by ring
  have hp : (0 : ℕ) < 2 ^ k := Nat.pos_pow_of_pos _ (by norm_num)
  have : pr.2 = 2 ^ k - 1 + 2 ^ (k + 1) * m := by omega
  rw [this, Nat.add_mul_mod_self_left, Nat.mod_eq_of_lt (by omega)]

lemma roundPairs_fst_ne_snd (n k : ℕ) (hdvd : 2 ^ (k + 1) ∣ n) :
    ∀ pr ∈ roundPairs n k, ∀ qr ∈ roundPairs n k, pr.1 ≠ qr.2 := by
  intro pr hpr qr hqr heq
  have h1 := (roundPairs_fst_lt n k hdvd pr hpr).2.2
  have h2 := roundPairs_snd_mod n k qr hqr
  have hp : (0 : ℕ) < 2 ^ k := Nat.pos_pow_of_pos _ (by norm_num)
  rw [← heq] at h2
  omega

lemma roundPairs_pairwise_fst (n k : ℕ) :
    (roundPairs n k).Pairwise (fun a b => a.1 ≠ b.1) := by
  have hnd : ((roundPairs n k).map Prod.fst).Nodup := by
    have hmap : (roundPairs n k).map Prod.fst =
        (List.range (2 ^ k)).flatMap fun l =>
          (List.range (n / 2 ^ (k + 1))).map fun m => 2 ^ k + l + 2 ^ (k + 1) * m := by
      simp only [roundPairs, List.map_flatMap, List.map_map]
      rfl
    rw [hmap, List.nodup_flatMap]
    constructor
    · intro l _
      refine List.Nodup.map ?_ (List.nodup_range _)
      intro m1 m2 hm
      simp only at hm
      have hq : (0 : ℕ) < 2 ^ (k + 1) := Nat.pos_pow_of_pos _ (by norm_num)
      have h' : 2 ^ (k + 1) * m1 = 2 ^ (k + 1) * m2 := by omega
      exact Nat.eq_of_mul_eq_mul_left hq h'
    · rw [List.pairwise_iff_forall_sublist]
      intro l1 l2 hsub
      have hne : l1 ≠ l2 := by
        have := List.Sublist.subset hsub
        have hnd := List.nodup_range (2 ^ k)
        intro hcontra
        subst hcontra
        exact (List.nodup_iff_sublist.mp hnd l1) hsub
      intro x hx1 hx2
      simp only [List.mem_map, List.mem_range] at hx1 hx2
      obtain ⟨m1, hm1, he1⟩ := hx1
      obtain ⟨m2, hm2, he2⟩ := hx2
      have hsl := hsub.subset
      have hl1 : l1 ∈ List.range (2 ^ k) := hsl (by simp)
      have hl2 : l2 ∈ List.range (2 ^ k) := hsl (by simp [List.mem_cons])
      simp only [List.mem_range] at hl1 hl2
      have h6 : (2 : ℕ) ^ (k + 1) = 2 * 2 ^ k := by ring
      have e : 2 ^ k + l1 + 2 ^ (k + 1) * m1 = 2 ^ k + l2 + 2 ^ (k + 1) * m2 := by
        rw [he1, he2]
      have hmod1 : (2 ^ k + l1 + 2 ^ (k + 1) * m1) % 2 ^ (k + 1) = 2 ^ k + l1 := by
        rw [Nat.add_mul_mod_self_left, Nat.mod_eq_of_lt (by omega)]
      have hmod2 : (2 ^ k + l2 + 2 ^ (k + 1) * m2) % 2 ^ (k + 1) = 2 ^ k + l2 := by
        rw [Nat.add_mul_mod_self_left, Nat.mod_eq_of_lt (by omega)]
      have : l1 = l2 := by
        have := congrArg (· % 2 ^ (k + 1)) e
        simp only [hmod1, hmod2] at this
        omega
      exact hne this
  have := (List.pairwise_map).mp hnd
  exact this.imp fun h => h

end SharemindSecret

/-! ## The tree invariant: interval folds -/

lemma mod_double_lt (i k : ℕ) (h : i % 2 ^ (k + 1) < 2 ^ k) :
    i % 2 ^ (k + 1) = i % 2 ^ k := by
  have h1 : i % 2 ^ (k + 1) % 2 ^ k = i % 2 ^ k :=
    Nat.mod_mod_of_dvd i (pow_dvd_pow 2 (Nat.le_succ k))
  have h2 : i % 2 ^ (k + 1) % 2 ^ k = i % 2 ^ (k + 1) := Nat.mod_eq_of_lt h
  omega

lemma mod_double_ge (i k : ℕ) (h : 2 ^ k ≤ i % 2 ^ (k + 1)) :
    i % 2 ^ (k + 1) = 2 ^ k + i % 2 ^ k := by
  have h1 : i % 2 ^ (k + 1) % 2 ^ k = i % 2 ^ k :=
    Nat.mod_mod_of_dvd i (pow_dvd_pow 2 (Nat.le_succ k))
  have h5 : i % 2 ^ (k + 1) < 2 ^ (k + 1) :=
    Nat.mod_lt _ (Nat.pos_pow_of_pos _ (by norm_num))
  have h6 : (2 : ℕ) ^ (k + 1) = 2 * 2 ^ k := by ring
  have h2 : i % 2 ^ (k + 1) % 2 ^ k = i % 2 ^ (k + 1) - 2 ^ k := by
    rw [Nat.mod_eq_sub_mod h]
    exact Nat.mod_eq_of_lt (by omega)
  omega

lemma start_eq_lt (i k : ℕ) (h : i % 2 ^ (k + 1) < 2 ^ k) :
    2 ^ (k + 1) * (i / 2 ^ (k + 1)) = 2 ^ k * (i / 2 ^ k) := by
  have hm := mod_double_lt i k h
  have h3 := Nat.div_add_mod i (2 ^ (k + 1))
  have h4 := Nat.div_add_mod i (2 ^ k)
  omega

lemma start_eq_ge (i k : ℕ) (h : 2 ^ k ≤ i % 2 ^ (k + 1)) :
    2 ^ k * (i / 2 ^ k) = 2 ^ (k + 1) * (i / 2 ^ (k + 1)) + 2 ^ k := by
  have hm := mod_double_ge i k h
  have h3 := Nat.div_add_mod i (2 ^ (k + 1))
  have h4 := Nat.div_add_mod i (2 ^ k)
  omega

section TreeInvariant

variable {R : Type} [CommRing R]

open SharemindSecret in
lemma round_invariant (base : ℕ → R × R) (n k : ℕ) (hdvd : 2 ^ (k + 1) ∣ n)
    (st : ℕ → R × R)
    (hst : ∀ i < n, st i = gpFold base (2 ^ k * (i / 2 ^ k)) (i % 2 ^ k)) :
    ∀ i < n, ((roundPairs n k).foldl updOnce st) i
      = gpFold base (2 ^ (k + 1) * (i / 2 ^ (k + 1))) (i % 2 ^ (k + 1)) := by
  intro i hi
  have hp : (0 : ℕ) < 2 ^ k := Nat.pos_pow_of_pos _ (by norm_num)
  have hq : (0 : ℕ) < 2 ^ (k + 1) := Nat.pos_pow_of_pos _ (by norm_num)
  have h6 : (2 : ℕ) ^ (k + 1) = 2 * 2 ^ k := by ring
  by_cases hbit : 2 ^ k ≤ i % 2 ^ (k + 1)
  · have hmem := roundPairs_mem n k i hdvd hi hbit
    rw [foldl_updOnce_fst (roundPairs n k) st i _ hmem
      (roundPairs_pairwise_fst n k) (roundPairs_fst_ne_snd n k hdvd)]
    have hmodq := mod_double_ge i k hbit
    have hstart := start_eq_ge i k hbit
    have hBp : 2 ^ (k + 1) * (i / 2 ^ (k + 1)) = 2 ^ k * (2 * (i / 2 ^ (k + 1))) := by
      rw [h6]; ring
    -- bound: the whole 2^(k+1)-block of i fits below n
    have hblock : 2 ^ (k + 1) * (i / 2 ^ (k + 1)) + 2 ^ (k + 1) ≤ n := by
      have hlt := Nat.div_lt_div_of_lt_of_dvd hdvd hi
      have hmul : 2 ^ (k + 1) * (i / 2 ^ (k + 1) + 1) ≤ 2 ^ (k + 1) * (n / 2 ^ (k + 1)) :=
        Nat.mul_le_mul_left _ hlt
      have hms : 2 ^ (k + 1) * (i / 2 ^ (k + 1) + 1)
          = 2 ^ (k + 1) * (i / 2 ^ (k + 1)) + 2 ^ (k + 1) := Nat.mul_succ _ _
      have hdn : 2 ^ (k + 1) * (n / 2 ^ (k + 1)) = n := Nat.mul_div_cancel' hdvd
      omega
    -- the value read at i2
    have hi2lt : 2 ^ (k + 1) * (i / 2 ^ (k + 1)) + 2 ^ k - 1 < n := by omega
    have hi2form : 2 ^ (k + 1) * (i / 2 ^ (k + 1)) + 2 ^ k - 1
        = 2 ^ k * (2 * (i / 2 ^ (k + 1))) + (2 ^ k - 1) := by omega
    have hi2div : 2 ^ k * ((2 ^ (k + 1) * (i / 2 ^ (k + 1)) + 2 ^ k - 1) / 2 ^ k)
        = 2 ^ (k + 1) * (i / 2 ^ (k + 1)) := by
      rw [hi2form, Nat.mul_add_div hp,
        Nat.div_eq_of_lt (show 2 ^ k - 1 < 2 ^ k by omega), Nat.add_zero, ← hBp]
    have hi2mod : (2 ^ (k + 1) * (i / 2 ^ (k + 1)) + 2 ^ k - 1) % 2 ^ k = 2 ^ k - 1 := by
      rw [hi2form, Nat.mul_add_mod, Nat.mod_eq_of_lt (by omega)]
    rw [hst i hi, hst _ hi2lt, hi2div, hi2mod, hstart]
    have happ := gpFold_append base (2 ^ (k + 1) * (i / 2 ^ (k + 1))) (2 ^ k - 1) (i % 2 ^ k)
    have harg : 2 ^ (k + 1) * (i / 2 ^ (k + 1)) + (2 ^ k - 1) + 1
        = 2 ^ (k + 1) * (i / 2 ^ (k + 1)) + 2 ^ k := by omega
    rw [harg] at happ
    rw [happ]
    congr 1
    omega
  · have hnofst : ∀ pr ∈ roundPairs n k, pr.1 ≠ i := by
      intro pr hpr heq
      have := (roundPairs_fst_lt n k hdvd pr hpr).2.2
      rw [heq] at this
      omega
    rw [foldl_updOnce_not_fst _ _ _ hnofst, hst i hi,
      mod_double_lt i k (by omega), start_eq_lt i k (by omega)]

open SharemindSecret in
lemma treeB_invariant (base : ℕ → R × R) (K : ℕ) (st0 : ℕ → R × R)
    (h0 : ∀ i < 2 ^ K, st0 i = base i) (j : ℕ) (hj : j ≤ K) :
    ∀ i < 2 ^ K,
      ((List.range j).foldl (fun st k => (roundPairs (2 ^ K) k).foldl updOnce st) st0) i
        = gpFold base (2 ^ j * (i / 2 ^ j)) (i % 2 ^ j) := by
  induction j with
  | zero =>
    intro i hi
    simpa [gpFold, Nat.mod_one] using h0 i hi
  | succ j ih =>
    rw [List.range_succ, List.foldl_append, List.foldl_cons, List.foldl_nil]
    exact round_invariant base (2 ^ K) j (pow_dvd_pow 2 hj) _ (ih (by omega))

open SharemindSecret in
lemma treeB_final (base : ℕ → R × R) (K : ℕ) (st0 : ℕ → R × R)
    (h0 : ∀ i < 2 ^ K, st0 i = base i) :
    ∀ i < 2 ^ K,
      ((List.range K).foldl (fun st k => (roundPairs (2 ^ K) k).foldl updOnce st) st0) i
        = gpFold base 0 i := by
  intro i hi
  have h := treeB_invariant base K st0 h0 K (le_refl K) i hi
  rwa [Nat.div_eq_of_lt hi, Nat.mod_eq_of_lt hi, Nat.mul_zero] at h

end TreeInvariant

/-! ## True-bit semantics of the fold: carries of binary addition -/

/-- The carry into position `i` when adding the bit streams `bu` and `bv`. -/
def carrySeq (bu bv : ℕ → ℤ) : ℕ → ℤ
  | 0 => 0
  | i + 1 => if 2 ≤ bu i + bv i + carrySeq bu bv i then 1 else 0

/-- The base generate/propagate pair at position `i`, over `ℤ`
(`s_i = u_i v_i`, `p_i = u_i + v_i - 2 u_i v_i`). -/
def gpBase (bu bv : ℕ → ℤ) (i : ℕ) : ℤ × ℤ :=
  (bu i * bv i, bu i + bv i - 2 * (bu i * bv i))

lemma carrySeq_bit (bu bv : ℕ → ℤ) (i : ℕ) :
    carrySeq bu bv i = 0 ∨ carrySeq bu bv i = 1 := by
  cases i with
  | zero => exact Or.inl rfl
  | succ j =>
    rw [show carrySeq bu bv (j + 1)
      = if 2 ≤ bu j + bv j + carrySeq bu bv j then (1 : ℤ) else 0 from rfl]
    split <;> simp

lemma gpFold_fst_eq_carry (bu bv : ℕ → ℤ) (i : ℕ)
    (hb : ∀ j ≤ i, (bu j = 0 ∨ bu j = 1) ∧ (bv j = 0 ∨ bv j = 1)) :
    (gpFold (gpBase bu bv) 0 i).1 = carrySeq bu bv (i + 1) := by
  induction i with
  | zero =>
    obtain ⟨hu, hv⟩ := hb 0 (le_refl 0)
    show bu 0 * bv 0 = if 2 ≤ bu 0 + bv 0 + carrySeq bu bv 0 then 1 else 0
    show bu 0 * bv 0 = if 2 ≤ bu 0 + bv 0 + 0 then 1 else 0
    rcases hu with h1 | h1 <;> rcases hv with h2 | h2 <;> rw [h1, h2] <;> norm_num
  | succ i ih =>
    have hfold : gpFold (gpBase bu bv) 0 (i + 1)
        = combineGP (gpBase bu bv (0 + i + 1)) (gpFold (gpBase bu bv) 0 i) := rfl
    rw [hfold]
    simp only [combineGP, Nat.zero_add]
    rw [ih (fun j hj => hb j (le_trans hj (Nat.le_succ i)))]
    obtain ⟨hu, hv⟩ := hb (i + 1) (le_refl _)
    have hc := carrySeq_bit bu bv (i + 1)
    rw [show carrySeq bu bv (i + 1 + 1)
      = if 2 ≤ bu (i + 1) + bv (i + 1) + carrySeq bu bv (i + 1) then (1 : ℤ) else 0 from rfl]
    simp only [gpBase]
    rcases hu with h1 | h1 <;> rcases hv with h2 | h2 <;> rcases hc with h3 | h3 <;>
      rw [h1, h2, h3] <;> norm_num

/-- Sum bit `i` of the bitwise addition: `u_i + v_i + c_i - 2 c_{i+1}`. -/
def wbitZ (bu bv : ℕ → ℤ) (i : ℕ) : ℤ :=
  bu i + bv i + carrySeq bu bv i - 2 * carrySeq bu bv (i + 1)

lemma wbitZ_bit (bu bv : ℕ → ℤ) (i : ℕ)
    (hu : bu i = 0 ∨ bu i = 1) (hv : bv i = 0 ∨ bv i = 1) :
    wbitZ bu bv i = 0 ∨ wbitZ bu bv i = 1 := by
  have hc := carrySeq_bit bu bv i
  unfold wbitZ
  rw [show carrySeq bu bv (i + 1)
    = if 2 ≤ bu i + bv i + carrySeq bu bv i then (1 : ℤ) else 0 from rfl]
  rcases hu with h1 | h1 <;> rcases hv with h2 | h2 <;> rcases hc with h3 | h3 <;>
    rw [h1, h2, h3] <;> norm_num

lemma wbitZ_sum (bu bv : ℕ → ℤ) (n : ℕ) :
    ∑ i ∈ Finset.range n, wbitZ bu bv i * 2 ^ i
      = (∑ i ∈ Finset.range n, bu i * 2 ^ i) + (∑ i ∈ Finset.range n, bv i * 2 ^ i)
        - carrySeq bu bv n * 2 ^ n := by
  induction n with
  | zero => simp [carrySeq]
  | succ n ih =>
    rw [Finset.sum_range_succ, Finset.sum_range_succ (f := fun i => bu i * 2 ^ i),
      Finset.sum_range_succ (f := fun i => bv i * 2 ^ i), ih, wbitZ]
    ring

lemma bitsum_nonneg (β : ℕ → ℤ) (n : ℕ) (hb : ∀ i < n, β i = 0 ∨ β i = 1) :
    0 ≤ ∑ i ∈ Finset.range n, β i * 2 ^ i := by
  apply Finset.sum_nonneg
  intro i hi
  rcases hb i (Finset.mem_range.mp hi) with h | h <;> rw [h] <;> positivity

lemma bitsum_lt (β : ℕ → ℤ) (n : ℕ) (hb : ∀ i < n, β i = 0 ∨ β i = 1) :
    ∑ i ∈ Finset.range n, β i * 2 ^ i < 2 ^ n := by
  induction n with
  | zero => simp
  | succ n ih =>
    rw [Finset.sum_range_succ]
    have h1 := ih (fun i hi => hb i (by omega))
    have h2 : (2 : ℤ) ^ (n + 1) = 2 ^ n + 2 ^ n := by ring
    have hpos : (0 : ℤ) ≤ 2 ^ n := by positivity
    rcases hb n (by omega) with h | h <;> rw [h] <;> norm_num <;> linarith

/-- Little-endian binary digits reassemble the value: over `ℤ`, for `0 ≤ v`,
`Σ_{i<n} (v / 2^i % 2) 2^i = v % 2^n`. -/
lemma digit_sum (n : ℕ) (v : ℤ) (hv : 0 ≤ v) :
    ∑ i ∈ Finset.range n, (v / 2 ^ i % 2) * 2 ^ i = v % 2 ^ n := by
  induction n with
  | zero => simp [Int.emod_one]
  | succ n ih =>
    have hp : (0 : ℤ) < 2 ^ n := by positivity
    have hb : v / 2 ^ n % 2 = 0 ∨ v / 2 ^ n % 2 = 1 := Int.emod_two_eq_zero_or_one _
    have hr0 : 0 ≤ v % 2 ^ n := Int.emod_nonneg _ (by positivity)
    have hr1 : v % 2 ^ n < 2 ^ n := Int.emod_lt_of_pos _ hp
    have key : v % 2 ^ (n + 1) = v / 2 ^ n % 2 * 2 ^ n + v % 2 ^ n := by
      have hveq : v = v / 2 ^ n % 2 * 2 ^ n + v % 2 ^ n + 2 ^ (n + 1) * (v / 2 ^ n / 2) := by
        calc v = 2 ^ n * (v / 2 ^ n) + v % 2 ^ n := (Int.ediv_add_emod v (2 ^ n)).symm
          _ = 2 ^ n * (2 * (v / 2 ^ n / 2) + v / 2 ^ n % 2) + v % 2 ^ n := by
              rw [Int.ediv_add_emod (v / 2 ^ n) 2]
          _ = v / 2 ^ n % 2 * 2 ^ n + v % 2 ^ n + 2 ^ (n + 1) * (v / 2 ^ n / 2) := by ring
      have h2 : (2 : ℤ) ^ (n + 1) = 2 ^ n + 2 ^ n := by ring
      have hge : 0 ≤ v / 2 ^ n % 2 * 2 ^ n + v % 2 ^ n := by
        rcases hb with h | h <;> rw [h] <;> omega
      have hlt : v / 2 ^ n % 2 * 2 ^ n + v % 2 ^ n < 2 ^ (n + 1) := by
        rcases hb with h | h <;> rw [h] <;> omega
      calc v % 2 ^ (n + 1)
          = (v / 2 ^ n % 2 * 2 ^ n + v % 2 ^ n + 2 ^ (n + 1) * (v / 2 ^ n / 2)) % 2 ^ (n + 1) := by
            conv_lhs => rw [hveq]
        _ = (v / 2 ^ n % 2 * 2 ^ n + v % 2 ^ n) % 2 ^ (n + 1) := by
            rw [Int.add_mul_emod_self_left]
        _ = v / 2 ^ n % 2 * 2 ^ n + v % 2 ^ n := Int.emod_eq_of_lt hge hlt
    rw [Finset.sum_range_succ, ih, key]
    ring

/-! ## Casting the fold from `ℤ` into `ZMod (2^n)` -/

/-- Componentwise cast of a generate/propagate pair into `ZMod (2^n)`. -/
def castGP (n : ℕ) (x : ℤ × ℤ) : ZMod (2 ^ n) × ZMod (2 ^ n) :=
  ((x.1 : ZMod (2 ^ n)), (x.2 : ZMod (2 ^ n)))

lemma combineGP_cast (n : ℕ) (x y : ℤ × ℤ) :
    combineGP (castGP n x) (castGP n y) = castGP n (combineGP x y) := by
  simp only [combineGP, castGP, Prod.mk.injEq]
  constructor <;> push_cast <;> ring

lemma gpFold_cast (n : ℕ) (base : ℕ → ℤ × ℤ) (a : ℕ) :
    ∀ len, gpFold (fun i => castGP n (base i)) a len = castGP n (gpFold base a len)
  | 0 => rfl
  | len + 1 => by
    rw [show gpFold (fun i => castGP n (base i)) a (len + 1)
      = combineGP (castGP n (base (a + len + 1)))
          (gpFold (fun i => castGP n (base i)) a len) from rfl]
    rw [gpFold_cast n base a len, combineGP_cast]
    rfl

namespace SharemindSecret

/-! ## Relating the secret-level tree to the proof-level fold -/

lemma sGet_set_ne (l : List SharemindSecret) (i j : ℕ) (x : SharemindSecret)
    (h : i ≠ j) : sGet (l.set i x) j = sGet l j := by
  simp [sGet, List.getD, List.getElem?_set_ne h]

lemma sGet_set_self (l : List SharemindSecret) (i : ℕ) (x : SharemindSecret)
    (h : i < l.length) : sGet (l.set i x) i = x := by
  simp [sGet, List.getD, List.getElem?_set_self, h]

/-- The simulation relation between the secret-level `s/p` lists and the
proof-level state function. -/
def listRel (n : ℕ) (sA pA : List SharemindSecret)
    (f : ℕ → ZMod (2 ^ n) × ZMod (2 ^ n)) : Prop :=
  sA.length = n ∧ pA.length = n ∧
  ∀ i < n, (sGet sA i).size = n ∧ (sGet pA i).size = n ∧
    (reconM n (sGet sA i), reconM n (sGet pA i)) = f i

lemma treeUpdateA_rel (g : RS) (n : ℕ) (sA pA : List SharemindSecret) (t : ℕ)
    (f : ℕ → ZMod (2 ^ n) × ZMod (2 ^ n)) (pr : ℕ × ℕ)
    (h1 : pr.1 < n) (h2 : pr.2 < n) (hrel : listRel n sA pA f) :
    listRel n (treeUpdateA g (sA, pA, t) pr).1 (treeUpdateA g (sA, pA, t) pr).2.1
      (updOnce f pr) := by
  obtain ⟨hsl, hpl, hv⟩ := hrel
  obtain ⟨hs1, hp1, hf1⟩ := hv pr.1 h1
  obtain ⟨hs2, hp2, hf2⟩ := hv pr.2 h2
  have hred1 : (treeUpdateA g (sA, pA, t) pr).1
      = sA.set pr.1 ((add g (sGet sA pr.1)
          (mul g (sGet pA pr.1) (sGet sA pr.2) t).1
          (mul g (sGet pA pr.1) (sGet sA pr.2) t).2).1) := rfl
  have hred2 : (treeUpdateA g (sA, pA, t) pr).2.1
      = pA.set pr.1 ((mul g (sGet pA pr.1) (sGet pA pr.2)
          (add g (sGet sA pr.1)
            (mul g (sGet pA pr.1) (sGet sA pr.2) t).1
            (mul g (sGet pA pr.1) (sGet sA pr.2) t).2).2).1) := rfl
  rw [listRel, hred1, hred2]
  refine ⟨by simp [hsl], by simp [hpl], ?_⟩
  intro i hi
  obtain ⟨hsi, hpi, hfi⟩ := hv i hi
  by_cases hieq : pr.1 = i
  · subst hieq
    rw [sGet_set_self _ _ _ (by omega), sGet_set_self _ _ _ (by omega)]
    refine ⟨by rw [add_size, hs1], by rw [mul_size, hp1], ?_⟩
    rw [updOnce, Function.update_same]
    rw [add_reconM g n _ _ hs1, mul_reconM g n _ _ hp1, mul_reconM g n _ _ hp1]
    rw [← hf1, ← hf2]
    rfl
  · rw [sGet_set_ne _ _ _ _ hieq, sGet_set_ne _ _ _ _ hieq, updOnce,
      Function.update_noteq (fun hcon => hieq hcon.symm)]
    exact ⟨hsi, hpi, hfi⟩

lemma foldl_treeUpdateA_rel (g : RS) (n : ℕ) (prs : List (ℕ × ℕ))
    (hprs : ∀ pr ∈ prs, pr.1 < n ∧ pr.2 < n) :
    ∀ (sA pA : List SharemindSecret) (t : ℕ) (f : ℕ → ZMod (2 ^ n) × ZMod (2 ^ n)),
      listRel n sA pA f →
      listRel n (prs.foldl (treeUpdateA g) (sA, pA, t)).1
        (prs.foldl (treeUpdateA g) (sA, pA, t)).2.1
        (prs.foldl updOnce f) := by
  induction prs with
  | nil => intro sA pA t f h; exact h
  | cons hd tl ih =>
    intro sA pA t f h
    rw [List.foldl_cons, List.foldl_cons]
    have hhd := hprs hd (List.mem_cons_self hd tl)
    have hstep := treeUpdateA_rel g n sA pA t f hd hhd.1 hhd.2 h
    exact ih (fun pr hpr => hprs pr (List.mem_cons_of_mem hd hpr)) _ _ _ _ hstep

lemma treeA_rel (g : RS) (n K : ℕ) (hn : n = 2 ^ K) :
    ∀ (ks : List ℕ), (∀ k ∈ ks, k < K) →
    ∀ (sA pA : List SharemindSecret) (t : ℕ) (f : ℕ → ZMod (2 ^ n) × ZMod (2 ^ n)),
      listRel n sA pA f →
      listRel n
        (ks.foldl (fun st k => (roundPairs n k).foldl (treeUpdateA g) st) (sA, pA, t)).1
        (ks.foldl (fun st k => (roundPairs n k).foldl (treeUpdateA g) st) (sA, pA, t)).2.1
        (ks.foldl (fun f k => (roundPairs n k).foldl updOnce f) f) := by
  intro ks
  induction ks with
  | nil => intro _ sA pA t f h; exact h
  | cons k0 tl ih =>
    intro hks sA pA t f h
    rw [List.foldl_cons, List.foldl_cons]
    have hdvd : 2 ^ (k0 + 1) ∣ n := by
      rw [hn]
      exact pow_dvd_pow 2 (hks k0 (List.mem_cons_self k0 tl))
    have hbound : ∀ pr ∈ roundPairs n k0, pr.1 < n ∧ pr.2 < n := by
      intro pr hpr
      have := roundPairs_fst_lt n k0 hdvd pr hpr
      exact ⟨this.1, this.2.1⟩
    have hstep := foldl_treeUpdateA_rel g n (roundPairs n k0) hbound sA pA t f h
    exact ih (fun k hk => hks k (List.mem_cons_of_mem k0 hk)) _ _ _ _ hstep

end SharemindSecret

namespace SharemindSecret

lemma numeric_of_reconM_eq (n : ℕ) (x : SharemindSecret) (hx : x.size = n) (z : ℤ)
    (hz0 : 0 ≤ z) (hz1 : z < ((2 ^ n : ℕ) : ℤ))
    (h : reconM n x = (z : ZMod (2 ^ n))) : x.numeric_value = z := by
  rw [numeric_value_eq_val n x hx, h, ZMod.val_intCast, Int.emod_eq_of_lt hz0 hz1]

lemma mulPairs_spec (g : RS) (n : ℕ) : ∀ (u v : List SharemindSecret) (t : ℕ),
    (∀ i < u.length, (sGet u i).size = n) → (∀ i < v.length, (sGet v i).size = n) →
    u.length = v.length →
    (mulPairs g u v t).1.length = u.length ∧
    ∀ i < u.length, (sGet (mulPairs g u v t).1 i).size = n ∧
      reconM n (sGet (mulPairs g u v t).1 i)
        = reconM n (sGet u i) * reconM n (sGet v i) := by
  intro u
  induction u with
  | nil => intro v t _ _ _; exact ⟨rfl, fun i hi => absurd hi (by simp)⟩
  | cons a us ih =>
    intro v t hus hvs hlen
    cases v with
    | nil => simp at hlen
    | cons b vs =>
      have ha : a.size = n := hus 0 (by simp)
      have hmp : mulPairs g (a :: us) (b :: vs) t
          = ((mul g a b t).1 :: (mulPairs g us vs (mul g a b t).2).1,
             (mulPairs g us vs (mul g a b t).2).2) := rfl
      have htl := ih vs (mul g a b t).2 (fun i hi => hus (i + 1) (by simpa using hi))
        (fun i hi => hvs (i + 1) (by simpa using hi)) (by simpa using hlen)
      rw [hmp]
      refine ⟨by simpa using htl.1, ?_⟩
      intro i hi
      cases i with
      | zero =>
        refine ⟨by rw [show sGet ((mul g a b t).1 :: _) 0 = (mul g a b t).1 from rfl,
          mul_size, ha], ?_⟩
        rw [show sGet ((mul g a b t).1 :: _) 0 = (mul g a b t).1 from rfl]
        exact mul_reconM g n a b ha t
      | succ j =>
        have hj : j < us.length := by simpa using hi
        exact (htl.2 j hj)

lemma pInit_spec (g : RS) (n : ℕ) : ∀ (u v s : List SharemindSecret) (t : ℕ),
    (∀ i < u.length, (sGet u i).size = n) → (∀ i < v.length, (sGet v i).size = n) →
    (∀ i < s.length, (sGet s i).size = n) →
    u.length = v.length → u.length = s.length →
    (pInit g u v s t).1.length = u.length ∧
    ∀ i < u.length, (sGet (pInit g u v s t).1 i).size = n ∧
      reconM n (sGet (pInit g u v s t).1 i)
        = reconM n (sGet u i) + reconM n (sGet v i) - reconM n (sGet s i) * 2 := by
  intro u
  induction u with
  | nil => intro v s t _ _ _ _ _; exact ⟨rfl, fun i hi => absurd hi (by simp)⟩
  | cons a us ih =>
    intro v s t hus hvs hss hlv hls
    cases v with
    | nil => simp at hlv
    | cons b vs =>
      cases s with
      | nil => simp at hls
      | cons c ss =>
        have ha : a.size = n := hus 0 (by simp)
        have hc : c.size = n := hss 0 (by simp)
        have hpi : pInit g (a :: us) (b :: vs) (c :: ss) t
            = ((sub g (add g a b t).1 (mul_scalar g c 2 (add g a b t).2).1
                  (mul_scalar g c 2 (add g a b t).2).2).1 ::
                (pInit g us vs ss (sub g (add g a b t).1
                  (mul_scalar g c 2 (add g a b t).2).1
                  (mul_scalar g c 2 (add g a b t).2).2).2).1,
               (pInit g us vs ss (sub g (add g a b t).1
                  (mul_scalar g c 2 (add g a b t).2).1
                  (mul_scalar g c 2 (add g a b t).2).2).2).2) := rfl
        have htl := ih vs ss
          ((sub g (add g a b t).1 (mul_scalar g c 2 (add g a b t).2).1
            (mul_scalar g c 2 (add g a b t).2).2).2)
          (fun i hi => hus (i + 1) (by simpa using hi))
          (fun i hi => hvs (i + 1) (by simpa using hi))
          (fun i hi => hss (i + 1) (by simpa using hi))
          (by simpa using hlv) (by simpa using hls)
        rw [hpi]
        refine ⟨by simpa using htl.1, ?_⟩
        intro i hi
        cases i with
        | zero =>
          constructor
          · show (sub g (add g a b t).1 (mul_scalar g c 2 (add g a b t).2).1
              (mul_scalar g c 2 (add g a b t).2).2).1.size = n
            rw [sub_size, add_size, ha]
          · show reconM n (sub g (add g a b t).1 (mul_scalar g c 2 (add g a b t).2).1
                (mul_scalar g c 2 (add g a b t).2).2).1
              = reconM n a + reconM n b - reconM n c * 2
            rw [sub_reconM g n ((add g a b t).1) ((mul_scalar g c 2 (add g a b t).2).1)
                (by rw [add_size, ha]) ((mul_scalar g c 2 (add g a b t).2).2),
              add_reconM g n a b ha t, mul_scalar_reconM g n c 2 hc ((add g a b t).2)]
            push_cast
            ring
        | succ j =>
          have hj : j < us.length := by simpa using hi
          exact htl.2 j hj

lemma mapT_spec (f : ℕ → ℕ → SharemindSecret × ℕ) (P : ℕ → SharemindSecret → Prop)
    (hf : ∀ i t, P i (f i t).1) : ∀ (l : List ℕ) (t : ℕ),
    (mapT f l t).1.length = l.length ∧
    ∀ j < l.length, P (l.getD j 0) (sGet (mapT f l t).1 j) := by
  intro l
  induction l with
  | nil => intro t; exact ⟨rfl, fun j hj => absurd hj (by simp)⟩
  | cons i0 is ih =>
    intro t
    have hmt : mapT f (i0 :: is) t
        = ((f i0 t).1 :: (mapT f is (f i0 t).2).1, (mapT f is (f i0 t).2).2) := rfl
    rw [hmt]
    have htl := ih (f i0 t).2
    refine ⟨by simpa using htl.1, ?_⟩
    intro j hj
    cases j with
    | zero => exact hf i0 t
    | succ j' =>
      have hj' : j' < is.length := by simpa using hj
      exact htl.2 j' hj'

end SharemindSecret

namespace SharemindSecret

lemma range'_getD (s m j : ℕ) (h : j < m) : (List.range' s m).getD j 0 = s + j := by
  rw [List.getD_eq_getElem?_getD, List.getElem?_range' _ _ h]
  simp

lemma one_lt_cast_two_pow (n : ℕ) (h : 1 ≤ n) : (1 : ℤ) < ((2 ^ n : ℕ) : ℤ) := by
  exact_mod_cast Nat.one_lt_two_pow (by omega)

/-- Main correctness of `bitwise_addition` at the level of share values: for a
power-of-two size `n` and two length-`n` vectors of size-`n` bit sharings, the
output at position `i` reconstructs exactly to the `i`-th sum bit
`u_i + v_i + c_i - 2 c_{i+1}` of binary addition. -/
theorem bitwise_addition_spec (g : RS) (n K : ℕ) (hn : n = 2 ^ K)
    (u v : List SharemindSecret) (t : ℕ)
    (hul : u.length = n) (hvl : v.length = n)
    (hus : ∀ i < n, (sGet u i).size = n) (hvs : ∀ i < n, (sGet v i).size = n)
    (hub : ∀ i < n, (sGet u i).numeric_value = 0 ∨ (sGet u i).numeric_value = 1)
    (hvb : ∀ i < n, (sGet v i).numeric_value = 0 ∨ (sGet v i).numeric_value = 1) :
    (bitwise_addition g u v t).1.length = n ∧
    ∀ i < n, (sGet (bitwise_addition g u v t).1 i).size = n ∧
      (sGet (bitwise_addition g u v t).1 i).numeric_value
        = wbitZ (fun j => (sGet u j).numeric_value)
            (fun j => (sGet v j).numeric_value) i := by
  have hn1 : 1 ≤ n := by rw [hn]; exact Nat.one_le_two_pow
  have hsz : (sGet u 0).size = n := hus 0 (by omega)
  have h2n : (1 : ℤ) < ((2 ^ n : ℕ) : ℤ) := one_lt_cast_two_pow n hn1
  -- facts about the initial flag lists
  have hsf := mulPairs_spec g n u v t (fun i hi => hus i (by omega))
    (fun i hi => hvs i (by omega)) (by omega)
  have hsfl : (mulPairs g u v t).1.length = n := by rw [hsf.1, hul]
  have hsfs : ∀ i < n, (sGet (mulPairs g u v t).1 i).size = n :=
    fun i hi => (hsf.2 i (by omega)).1
  have hsfr : ∀ i < n, reconM n (sGet (mulPairs g u v t).1 i)
      = reconM n (sGet u i) * reconM n (sGet v i) :=
    fun i hi => (hsf.2 i (by omega)).2
  have hpf := pInit_spec g n u v (mulPairs g u v t).1 (mulPairs g u v t).2
    (fun i hi => hus i (by omega)) (fun i hi => hvs i (by omega))
    (fun i hi => hsfs i (by omega)) (by omega) (by omega)
  have hpfl : (pInit g u v (mulPairs g u v t).1 (mulPairs g u v t).2).1.length = n := by
    rw [hpf.1, hul]
  have hpfs : ∀ i < n,
      (sGet (pInit g u v (mulPairs g u v t).1 (mulPairs g u v t).2).1 i).size = n :=
    fun i hi => (hpf.2 i (by omega)).1
  have hpfr : ∀ i < n,
      reconM n (sGet (pInit g u v (mulPairs g u v t).1 (mulPairs g u v t).2).1 i)
        = reconM n (sGet u i) + reconM n (sGet v i)
          - reconM n (sGet (mulPairs g u v t).1 i) * 2 :=
    fun i hi => (hpf.2 i (by omega)).2
  -- the simulation relation at the start of the tree
  have hrel0 : listRel n (mulPairs g u v t).1
      (pInit g u v (mulPairs g u v t).1 (mulPairs g u v t).2).1
      (fun i => castGP n (gpBase (fun j => (sGet u j).numeric_value)
        (fun j => (sGet v j).numeric_value) i)) := by
    refine ⟨hsfl, hpfl, ?_⟩
    intro i hi
    refine ⟨hsfs i hi, hpfs i hi, ?_⟩
    have hu' := reconM_of_numeric n (sGet u i) (hus i hi)
    have hv' := reconM_of_numeric n (sGet v i) (hvs i hi)
    rw [Prod.mk.injEq]
    constructor
    · rw [hsfr i hi, hu', hv']
      show _ = (((sGet u i).numeric_value * (sGet v i).numeric_value : ℤ) : ZMod (2 ^ n))
      push_cast
      ring
    · rw [hpfr i hi, hsfr i hi, hu', hv']
      show _ = (((sGet u i).numeric_value + (sGet v i).numeric_value
        - 2 * ((sGet u i).numeric_value * (sGet v i).numeric_value) : ℤ) : ZMod (2 ^ n))
      push_cast
      ring
  -- the simulation relation after the tree
  have hlog : Nat.log 2 n = K := by rw [hn]; exact Nat.log_pow (b := 2) (by norm_num) K
  have htr := treeA_rel g n K hn (List.range (Nat.log 2 n))
    (by rw [hlog]; intro k hk; simpa using hk)
    (mulPairs g u v t).1 (pInit g u v (mulPairs g u v t).1 (mulPairs g u v t).2).1
    (pInit g u v (mulPairs g u v t).1 (mulPairs g u v t).2).2 _ hrel0
  -- evaluate the proof-level fold via the interval invariant
  have hB := treeB_final (fun i => castGP n (gpBase (fun j => (sGet u j).numeric_value)
      (fun j => (sGet v j).numeric_value) i)) K
    (fun i => castGP n (gpBase (fun j => (sGet u j).numeric_value)
      (fun j => (sGet v j).numeric_value) i)) (fun i _ => rfl)
  rw [← hn] at hB
  -- per-index carry values after the tree
  have htrc : ∀ i < n,
      (sGet (treeA g n (mulPairs g u v t).1
        (pInit g u v (mulPairs g u v t).1 (mulPairs g u v t).2).1
        (pInit g u v (mulPairs g u v t).1 (mulPairs g u v t).2).2).1 i).size = n ∧
      reconM n (sGet (treeA g n (mulPairs g u v t).1
        (pInit g u v (mulPairs g u v t).1 (mulPairs g u v t).2).1
        (pInit g u v (mulPairs g u v t).1 (mulPairs g u v t).2).2).1 i)
        = ((carrySeq (fun j => (sGet u j).numeric_value)
            (fun j => (sGet v j).numeric_value) (i + 1) : ℤ) : ZMod (2 ^ n)) := by
    intro i hi
    obtain ⟨-, -, hval⟩ := htr
    obtain ⟨hsize, -, hpair⟩ := hval i hi
    refine ⟨hsize, ?_⟩
    have hpfst : reconM n (sGet (treeA g n (mulPairs g u v t).1
        (pInit g u v (mulPairs g u v t).1 (mulPairs g u v t).2).1
        (pInit g u v (mulPairs g u v t).1 (mulPairs g u v t).2).2).1 i)
        = ((List.range (Nat.log 2 n)).foldl
            (fun f k => (roundPairs n k).foldl updOnce f)
            (fun i => castGP n (gpBase (fun j => (sGet u j).numeric_value)
              (fun j => (sGet v j).numeric_value) i)) i).1 := congrArg Prod.fst hpair
    rw [hlog] at hpfst
    rw [hpfst, hB i hi, gpFold_cast]
    have hfst := gpFold_fst_eq_carry (fun j => (sGet u j).numeric_value)
      (fun j => (sGet v j).numeric_value) i
      (fun j hj => ⟨hub j (by omega), hvb j (by omega)⟩)
    simp only [castGP]
    rw [hfst]
  -- bounds for the sum bits
  have hwbit : ∀ i < n,
      wbitZ (fun j => (sGet u j).numeric_value) (fun j => (sGet v j).numeric_value) i = 0 ∨
      wbitZ (fun j => (sGet u j).numeric_value) (fun j => (sGet v j).numeric_value) i = 1 :=
    fun i hi => wbitZ_bit _ _ i (hub i hi) (hvb i hi)
  have hwbd : ∀ i < n,
      0 ≤ wbitZ (fun j => (sGet u j).numeric_value) (fun j => (sGet v j).numeric_value) i ∧
      wbitZ (fun j => (sGet u j).numeric_value) (fun j => (sGet v j).numeric_value) i
        < ((2 ^ n : ℕ) : ℤ) := by
    intro i hi
    rcases hwbit i hi with h | h <;> rw [h] <;> constructor <;> omega
  -- unfold the program term and name its pieces
  simp only [bitwise_addition, hsz]
  set SF := mulPairs g u v t with hSF
  set PF := pInit g u v SF.1 SF.2 with hPF
  set TR := treeA g n SF.1 PF.1 PF.2 with hTR
  set W0UV := add g (sGet u 0) (sGet v 0) TR.2.2 with hW0UV
  set W0S2 := mul_scalar g (sGet TR.1 0) 2 W0UV.2 with hW0S2
  set W0 := sub g W0UV.1 W0S2.1 W0S2.2 with hW0
  -- the first output bit
  have hW0size : W0.1.size = n := by
    rw [hW0, sub_size, hW0UV, add_size, hsz]
  have hW0recon : reconM n W0.1
      = ((wbitZ (fun j => (sGet u j).numeric_value)
          (fun j => (sGet v j).numeric_value) 0 : ℤ) : ZMod (2 ^ n)) := by
    rw [hW0, sub_reconM g n W0UV.1 W0S2.1 (by rw [hW0UV, add_size, hsz]) W0S2.2,
      hW0UV, add_reconM g n (sGet u 0) (sGet v 0) hsz TR.2.2,
      hW0S2, mul_scalar_reconM g n (sGet TR.1 0) 2 (htrc 0 (by omega)).1 W0UV.2,
      (htrc 0 (by omega)).2,
      reconM_of_numeric n (sGet u 0) (hus 0 (by omega)),
      reconM_of_numeric n (sGet v 0) (hvs 0 (by omega)), wbitZ,
      show carrySeq (fun j => (sGet u j).numeric_value)
        (fun j => (sGet v j).numeric_value) 0 = 0 from rfl]
    push_cast
    ring
  have hW0num : W0.1.numeric_value
      = wbitZ (fun j => (sGet u j).numeric_value)
          (fun j => (sGet v j).numeric_value) 0 :=
    numeric_of_reconM_eq n W0.1 hW0size _ (hwbd 0 (by omega)).1 (hwbd 0 (by omega)).2 hW0recon
  -- the remaining output bits
  have hmsp := mapT_spec
    (fun i t => sub g
      (add g (add g (sGet u i) (sGet v i) t).1 (sGet TR.1 (i - 1))
        (add g (sGet u i) (sGet v i) t).2).1
      (mul_scalar g (sGet TR.1 i) 2
        (add g (add g (sGet u i) (sGet v i) t).1 (sGet TR.1 (i - 1))
          (add g (sGet u i) (sGet v i) t).2).2).1
      (mul_scalar g (sGet TR.1 i) 2
        (add g (add g (sGet u i) (sGet v i) t).1 (sGet TR.1 (i - 1))
          (add g (sGet u i) (sGet v i) t).2).2).2)
    (fun i s => 1 ≤ i → i < n →
      s.size = n ∧ s.numeric_value
        = wbitZ (fun j => (sGet u j).numeric_value)
            (fun j => (sGet v j).numeric_value) i)
    (by
      intro i t' hi1 hin
      have hsize : (sub g
          (add g (add g (sGet u i) (sGet v i) t').1 (sGet TR.1 (i - 1))
            (add g (sGet u i) (sGet v i) t').2).1
          (mul_scalar g (sGet TR.1 i) 2
            (add g (add g (sGet u i) (sGet v i) t').1 (sGet TR.1 (i - 1))
              (add g (sGet u i) (sGet v i) t').2).2).1
          (mul_scalar g (sGet TR.1 i) 2
            (add g (add g (sGet u i) (sGet v i) t').1 (sGet TR.1 (i - 1))
              (add g (sGet u i) (sGet v i) t').2).2).2).1.size = n := by
        rw [sub_size, add_size, add_size]
        exact hus i hin
      refine ⟨hsize, ?_⟩
      have hrec : reconM n (sub g
          (add g (add g (sGet u i) (sGet v i) t').1 (sGet TR.1 (i - 1))
            (add g (sGet u i) (sGet v i) t').2).1
          (mul_scalar g (sGet TR.1 i) 2
            (add g (add g (sGet u i) (sGet v i) t').1 (sGet TR.1 (i - 1))
              (add g (sGet u i) (sGet v i) t').2).2).1
          (mul_scalar g (sGet TR.1 i) 2
            (add g (add g (sGet u i) (sGet v i) t').1 (sGet TR.1 (i - 1))
              (add g (sGet u i) (sGet v i) t').2).2).2).1
          = ((wbitZ (fun j => (sGet u j).numeric_value)
              (fun j => (sGet v j).numeric_value) i : ℤ) : ZMod (2 ^ n)) := by
        rw [sub_reconM g n _ _ (by rw [add_size, add_size]; exact hus i hin) _,
          add_reconM g n _ _ (by rw [add_size]; exact hus i hin) _,
          add_reconM g n _ _ (hus i hin) _,
          mul_scalar_reconM g n _ 2 (htrc i hin).1 _,
          (htrc i hin).2, (htrc (i - 1) (by omega)).2,
          reconM_of_numeric n (sGet u i) (hus i hin),
          reconM_of_numeric n (sGet v i) (hvs i hin), wbitZ,
          show i - 1 + 1 = i from by omega]
        push_cast
        ring
      exact numeric_of_reconM_eq n _ hsize _ (hwbd i hin).1 (hwbd i hin).2 hrec)
    (List.range' 1 (n - 1)) W0.2
  constructor
  · simp only [List.length_cons, hmsp.1, List.length_range']
    omega
  · intro i hi
    cases i with
    | zero => exact ⟨hW0size, hW0num⟩
    | succ j =>
      have hj : j < n - 1 := by omega
      have hlen : j < (List.range' 1 (n - 1)).length := by
        rw [List.length_range']
        omega
      have hP := hmsp.2 j hlen
      rw [range'_getD 1 (n - 1) j hj] at hP
      have h1j : 1 + j = j + 1 := by omega
      rw [h1j] at hP
      exact hP (by omega) (by omega)

end SharemindSecret

namespace SharemindSecret

lemma numeric_of_reconM_mod (n : ℕ) (w : SharemindSecret) (hw : w.size = n) (z : ℤ)
    (h : reconM n w = (z : ZMod (2 ^ n))) :
    w.numeric_value = z % ((2 ^ n : ℕ) : ℤ) := by
  rw [numeric_value_eq_val n w hw, h, ZMod.val_intCast]

end SharemindSecret

open SharemindSecret in
/-- C1: for every size `n` and every pair of secrets `x, y` of size `n` (and
every random stream and cursor), the secure multiplication protocol returns a
secret whose reconstruction is the product of the reconstructions mod `2^n`:
`reconstruct(mul(x,y)) = (reconstruct(x) * reconstruct(y)) % 2^n`. -/
theorem C1_secure_mul_correct (g : RS) (n : ℕ) (x y : SharemindSecret) (t : ℕ)
    (hx : x.size = n) (hy : y.size = n) :
    (mul g x y t).1.numeric_value
      = (x.numeric_value * y.numeric_value) % ((2 ^ n : ℕ) : ℤ) := by
  have h1 : reconM n (mul g x y t).1
      = ((x.numeric_value * y.numeric_value : ℤ) : ZMod (2 ^ n)) := by
    rw [mul_reconM g n x y hx t, reconM_of_numeric n x hx, reconM_of_numeric n y hy]
    push_cast
    ring
  exact numeric_of_reconM_mod n _ (by rw [mul_size, hx]) _ h1

open SharemindSecret in
/-- Witness for C1 at `n = 4`, `x` sharing 3, `y` sharing 5, zero stream. -/
theorem C1_secure_mul_correct_witness :
    (mul (fun _ => 0) ⟨4, 3, 0, 0⟩ ⟨4, 5, 0, 0⟩ 0).1.numeric_value
      = ((⟨4, 3, 0, 0⟩ : SharemindSecret).numeric_value
          * (⟨4, 5, 0, 0⟩ : SharemindSecret).numeric_value) % ((2 ^ 4 : ℕ) : ℤ) :=
  C1_secure_mul_correct (fun _ => 0) 4 ⟨4, 3, 0, 0⟩ ⟨4, 5, 0, 0⟩ 0 rfl rfl

open SharemindSecret in
/-- C7: the local operations are homomorphic with respect to reconstruction:
addition, subtraction and scalar multiplication of share triples reconstruct
to the sum, difference and scalar product mod `2^n`. -/
theorem C7_local_ops_homomorphic (g : RS) (n : ℕ) (x y : SharemindSecret) (k : ℤ)
    (t : ℕ) (hx : x.size = n) (hy : y.size = n) :
    (add g x y t).1.numeric_value
      = (x.numeric_value + y.numeric_value) % ((2 ^ n : ℕ) : ℤ) ∧
    (sub g x y t).1.numeric_value
      = (x.numeric_value - y.numeric_value) % ((2 ^ n : ℕ) : ℤ) ∧
    (mul_scalar g x k t).1.numeric_value
      = (x.numeric_value * k) % ((2 ^ n : ℕ) : ℤ) := by
  refine ⟨?_, ?_, ?_⟩
  · have h1 : reconM n (add g x y t).1
        = ((x.numeric_value + y.numeric_value : ℤ) : ZMod (2 ^ n)) := by
      rw [add_reconM g n x y hx t, reconM_of_numeric n x hx, reconM_of_numeric n y hy]
      push_cast
      ring
    exact numeric_of_reconM_mod n _ (by rw [add_size, hx]) _ h1
  · have h1 : reconM n (sub g x y t).1
        = ((x.numeric_value - y.numeric_value : ℤ) : ZMod (2 ^ n)) := by
      rw [sub_reconM g n x y hx t, reconM_of_numeric n x hx, reconM_of_numeric n y hy]
      push_cast
      ring
    exact numeric_of_reconM_mod n _ (by rw [sub_size, hx]) _ h1
  · have h1 : reconM n (mul_scalar g x k t).1
        = ((x.numeric_value * k : ℤ) : ZMod (2 ^ n)) := by
      rw [mul_scalar_reconM g n x k hx t, reconM_of_numeric n x hx]
      push_cast
      ring
    exact numeric_of_reconM_mod n _ (by rw [mul_scalar_size, hx]) _ h1

open SharemindSecret in
/-- Witness for C7 at `n = 4`, `x` sharing 9, `y` sharing 7, `k = 3`. -/
theorem C7_local_ops_homomorphic_witness :
    (add (fun _ => 2) ⟨4, 9, 0, 0⟩ ⟨4, 7, 0, 0⟩ 0).1.numeric_value
      = ((⟨4, 9, 0, 0⟩ : SharemindSecret).numeric_value
          + (⟨4, 7, 0, 0⟩ : SharemindSecret).numeric_value) % ((2 ^ 4 : ℕ) : ℤ) ∧
    (sub (fun _ => 2) ⟨4, 9, 0, 0⟩ ⟨4, 7, 0, 0⟩ 0).1.numeric_value
      = ((⟨4, 9, 0, 0⟩ : SharemindSecret).numeric_value
          - (⟨4, 7, 0, 0⟩ : SharemindSecret).numeric_value) % ((2 ^ 4 : ℕ) : ℤ) ∧
    (mul_scalar (fun _ => 2) ⟨4, 9, 0, 0⟩ 3 0).1.numeric_value
      = ((⟨4, 9, 0, 0⟩ : SharemindSecret).numeric_value * 3) % ((2 ^ 4 : ℕ) : ℤ) :=
  C7_local_ops_homomorphic (fun _ => 2) 4 ⟨4, 9, 0, 0⟩ ⟨4, 7, 0, 0⟩ 3 0 rfl rfl

open SharemindSecret in
/-- C6: `re_share` replaces the triple `(u1, u2, u3)` with
`((u1+r3−r1) mod 2^n, (u2+r1−r2) mod 2^n, (u3+r2−r3) mod 2^n)` where
`r1, r2, r3` are the three fresh samples in `[0, 2^n)` (realised as
`sample g t n`, `sample g (t+1) n`, `sample g (t+2) n`; every choice of
`r1, r2, r3` arises from some stream `g`), and the reconstructed value is
unchanged for every such choice. -/
theorem C6_reshare_formula_and_invariance (g : RS) (n : ℕ) (x : SharemindSecret)
    (t : ℕ) (hx : x.size = n) :
    (re_share g x t).1
      = ⟨n, (x.s1 + sample g (t + 2) n - sample g t n) % ((2 ^ n : ℕ) : ℤ),
          (x.s2 + sample g t n - sample g (t + 1) n) % ((2 ^ n : ℕ) : ℤ),
          (x.s3 + sample g (t + 1) n - sample g (t + 2) n) % ((2 ^ n : ℕ) : ℤ)⟩ ∧
    (re_share g x t).1.numeric_value = x.numeric_value := by
  subst hx
  refine ⟨rfl, ?_⟩
  rw [numeric_value_eq_val x.size _ (re_share_size g x t),
    re_share_reconM g x.size x rfl t, ← numeric_value_eq_val x.size x rfl]

open SharemindSecret in
/-- Witness for C6 at `n = 3`, concrete shares and stream. -/
theorem C6_reshare_formula_and_invariance_witness :
    (re_share (fun k => k + 5) ⟨3, 6, 1, 4⟩ 0).1
      = ⟨3, (6 + sample (fun k => k + 5) 2 3 - sample (fun k => k + 5) 0 3) % ((2 ^ 3 : ℕ) : ℤ),
          (1 + sample (fun k => k + 5) 0 3 - sample (fun k => k + 5) 1 3) % ((2 ^ 3 : ℕ) : ℤ),
          (4 + sample (fun k => k + 5) 1 3 - sample (fun k => k + 5) 2 3) % ((2 ^ 3 : ℕ) : ℤ)⟩ ∧
    (re_share (fun k => k + 5) ⟨3, 6, 1, 4⟩ 0).1.numeric_value
      = (⟨3, 6, 1, 4⟩ : SharemindSecret).numeric_value :=
  C6_reshare_formula_and_invariance (fun k => k + 5) 3 ⟨3, 6, 1, 4⟩ 0 rfl

open SharemindSecret in
/-- C5: for every size `n ≥ 1` (size 0 is rejected by the constructor's own
range assertion) and every triple of bits `t1, t2, t3 ∈ {0,1}`,
`from_binary_shares` returns a secret over `Z/2^n` reconstructing to
`(t1 + t2 + t3) mod 2`, the XOR of the three bits. -/
theorem C5_bin_to_arith_correct (g : RS) (n : ℕ) (hn : 1 ≤ n) (t1 t2 t3 : ℤ)
    (h1 : t1 = 0 ∨ t1 = 1) (h2 : t2 = 0 ∨ t2 = 1) (h3 : t3 = 0 ∨ t3 = 1) (t : ℕ) :
    (from_binary_shares g (t1, t2, t3) n t).1.numeric_value = (t1 + t2 + t3) % 2 := by
  have hrec : reconM n (from_binary_shares g (t1, t2, t3) n t).1
      = ((t1 + t2 + t3 - 2 * (t1 * t2) - 2 * (t1 * t3) - 2 * (t2 * t3)
          + 4 * (t1 * t2 * t3) : ℤ) : ZMod (2 ^ n)) :=
    from_binary_shares_reconM g (t1, t2, t3) n t
  have hpoly : t1 + t2 + t3 - 2 * (t1 * t2) - 2 * (t1 * t3) - 2 * (t2 * t3)
      + 4 * (t1 * t2 * t3) = (t1 + t2 + t3) % 2 := by
    rcases h1 with h | h <;> rcases h2 with h' | h' <;> rcases h3 with h'' | h'' <;>
      rw [h, h', h''] <;> decide
  rw [hpoly] at hrec
  have hb : (t1 + t2 + t3) % 2 = 0 ∨ (t1 + t2 + t3) % 2 = 1 :=
    Int.emod_two_eq_zero_or_one _
  have h2n := one_lt_cast_two_pow n hn
  exact numeric_of_reconM_eq n _ (from_binary_shares_size g (t1, t2, t3) n t) _
    (by rcases hb with h | h <;> omega) (by rcases hb with h | h <;> omega) hrec

open SharemindSecret in
/-- Witness for C5 at `n = 4`, bits `(1, 1, 1)` (XOR 1), zero stream. -/
theorem C5_bin_to_arith_correct_witness :
    (from_binary_shares (fun _ => 0) (1, 1, 1) 4 0).1.numeric_value
      = ((1 : ℤ) + 1 + 1) % 2 :=
  C5_bin_to_arith_correct (fun _ => 0) 4 (by omega) 1 1 1 (Or.inr rfl) (Or.inr rfl)
    (Or.inr rfl) 0

namespace SharemindSecret

/-- Shared helper: on a triple of bits, `from_binary_shares` reconstructs to
their sum mod 2 (the XOR). -/
lemma from_binary_shares_bit_numeric (g : RS) (n : ℕ) (hn : 1 ≤ n) (b1 b2 b3 : ℤ)
    (h1 : b1 = 0 ∨ b1 = 1) (h2 : b2 = 0 ∨ b2 = 1) (h3 : b3 = 0 ∨ b3 = 1) (t : ℕ) :
    (from_binary_shares g (b1, b2, b3) n t).1.numeric_value = (b1 + b2 + b3) % 2 := by
  have hrec : reconM n (from_binary_shares g (b1, b2, b3) n t).1
      = ((b1 + b2 + b3 - 2 * (b1 * b2) - 2 * (b1 * b3) - 2 * (b2 * b3)
          + 4 * (b1 * b2 * b3) : ℤ) : ZMod (2 ^ n)) :=
    from_binary_shares_reconM g (b1, b2, b3) n t
  have hpoly : b1 + b2 + b3 - 2 * (b1 * b2) - 2 * (b1 * b3) - 2 * (b2 * b3)
      + 4 * (b1 * b2 * b3) = (b1 + b2 + b3) % 2 := by
    rcases h1 with h | h <;> rcases h2 with h' | h' <;> rcases h3 with h'' | h'' <;>
      rw [h, h', h''] <;> decide
  rw [hpoly] at hrec
  have hb : (b1 + b2 + b3) % 2 = 0 ∨ (b1 + b2 + b3) % 2 = 1 :=
    Int.emod_two_eq_zero_or_one _
  have h2n := one_lt_cast_two_pow n hn
  exact numeric_of_reconM_eq n _ (from_binary_shares_size g (b1, b2, b3) n t) _
    (by rcases hb with h | h <;> omega) (by rcases hb with h | h <;> omega) hrec

lemma accumBits_spec (g : RS) (n : ℕ) : ∀ (l : List SharemindSecret) (i0 : ℕ)
    (r : SharemindSecret) (t : ℕ), r.size = n → (∀ j < l.length, (sGet l j).size = n) →
    (accumBits g i0 l r t).1.size = n ∧
    reconM n (accumBits g i0 l r t).1
      = reconM n r + ∑ j ∈ Finset.range l.length,
          reconM n (sGet l j) * (((2 : ℤ) ^ (i0 + j) : ℤ) : ZMod (2 ^ n)) := by
  intro l
  induction l with
  | nil =>
    intro i0 r t hr _
    exact ⟨hr, by simp [accumBits]⟩
  | cons b rest ih =>
    intro i0 r t hr hl
    have hb : b.size = n := hl 0 (by simp)
    have hacc : accumBits g i0 (b :: rest) r t
        = accumBits g (i0 + 1) rest
            (add g r (mul_scalar g b (2 ^ i0) t).1 (mul_scalar g b (2 ^ i0) t).2).1
            (add g r (mul_scalar g b (2 ^ i0) t).1 (mul_scalar g b (2 ^ i0) t).2).2 := rfl
    have hr1size : (add g r (mul_scalar g b (2 ^ i0) t).1
        (mul_scalar g b (2 ^ i0) t).2).1.size = n := by rw [add_size, hr]
    have htl := ih (i0 + 1)
      (add g r (mul_scalar g b (2 ^ i0) t).1 (mul_scalar g b (2 ^ i0) t).2).1
      (add g r (mul_scalar g b (2 ^ i0) t).1 (mul_scalar g b (2 ^ i0) t).2).2
      hr1size (fun j hj => hl (j + 1) (by simpa using hj))
    rw [hacc]
    refine ⟨htl.1, ?_⟩
    rw [htl.2, add_reconM g n r _ hr, mul_scalar_reconM g n b _ hb]
    rw [List.length_cons, Finset.sum_range_succ']
    have hshift : ∀ j, sGet (b :: rest) (j + 1) = sGet rest j := fun j => rfl
    have hcongr : ∑ j ∈ Finset.range rest.length,
        reconM n (sGet (b :: rest) (j + 1)) * (((2 : ℤ) ^ (i0 + (j + 1)) : ℤ) : ZMod (2 ^ n))
        = ∑ j ∈ Finset.range rest.length,
          reconM n (sGet rest j) * (((2 : ℤ) ^ (i0 + 1 + j) : ℤ) : ZMod (2 ^ n)) := by
      refine Finset.sum_congr rfl fun j _ => ?_
      rw [hshift j, show i0 + (j + 1) = i0 + 1 + j from by omega]
    rw [hcongr, show sGet (b :: rest) 0 = b from rfl, show i0 + 0 = i0 from rfl]
    push_cast
    ring

/-- Facts about `generate_random_number_and_bits`: the bit list has length
`size`, consists of size-`size` bit sharings, and the number `r` reconstructs
to the weighted sum of the bit reconstructions. -/
lemma generate_random_number_and_bits_spec (g : RS) (n : ℕ) (hn : 1 ≤ n) (t : ℕ) :
    (generate_random_number_and_bits g n t).1.2.length = n ∧
    (∀ i < n, (sGet (generate_random_number_and_bits g n t).1.2 i).size = n ∧
      ((sGet (generate_random_number_and_bits g n t).1.2 i).numeric_value = 0 ∨
       (sGet (generate_random_number_and_bits g n t).1.2 i).numeric_value = 1)) ∧
    (generate_random_number_and_bits g n t).1.1.size = n ∧
    reconM n (generate_random_number_and_bits g n t).1.1
      = ∑ j ∈ Finset.range n,
          ((((sGet (generate_random_number_and_bits g n t).1.2 j).numeric_value
            * 2 ^ j : ℤ)) : ZMod (2 ^ n)) := by
  have hms := mapT_spec
    (fun _ t => from_binary_shares g
      (((g t : ℤ) % 2), ((g (t + 1) : ℤ) % 2), ((g (t + 2) : ℤ) % 2)) n (t + 3))
    (fun _ s => s.size = n ∧ (s.numeric_value = 0 ∨ s.numeric_value = 1))
    (by
      intro i t'
      refine ⟨from_binary_shares_size g _ n (t' + 3), ?_⟩
      have hnum := from_binary_shares_bit_numeric g n hn
        ((g t' : ℤ) % 2) ((g (t' + 1) : ℤ) % 2) ((g (t' + 2) : ℤ) % 2)
        (Int.emod_two_eq_zero_or_one _) (Int.emod_two_eq_zero_or_one _)
        (Int.emod_two_eq_zero_or_one _) (t' + 3)
      rw [hnum]
      exact Int.emod_two_eq_zero_or_one _)
    (List.range n) t
  have hlen : (generate_random_number_and_bits g n t).1.2.length = n := by
    have := hms.1
    simpa [generate_random_number_and_bits] using this
  have hbits : ∀ i < n, (sGet (generate_random_number_and_bits g n t).1.2 i).size = n ∧
      ((sGet (generate_random_number_and_bits g n t).1.2 i).numeric_value = 0 ∨
       (sGet (generate_random_number_and_bits g n t).1.2 i).numeric_value = 1) := by
    intro i hi
    have := hms.2 i (by simpa using hi)
    exact this
  have hrb := accumBits_spec g n
    (mapT (fun _ t => from_binary_shares g
      (((g t : ℤ) % 2), ((g (t + 1) : ℤ) % 2), ((g (t + 2) : ℤ) % 2)) n (t + 3))
      (List.range n) t).1 0
    (fromValue g 0 n
      (mapT (fun _ t => from_binary_shares g
        (((g t : ℤ) % 2), ((g (t + 1) : ℤ) % 2), ((g (t + 2) : ℤ) % 2)) n (t + 3))
        (List.range n) t).2).1
    (fromValue g 0 n
      (mapT (fun _ t => from_binary_shares g
        (((g t : ℤ) % 2), ((g (t + 1) : ℤ) % 2), ((g (t + 2) : ℤ) % 2)) n (t + 3))
        (List.range n) t).2).2
    (fromValue_size g 0 n _)
    (fun j hj => (hms.2 j (by rw [← hms.1]; exact hj)).1)
  refine ⟨hlen, hbits, hrb.1, ?_⟩
  rw [show (generate_random_number_and_bits g n t).1.2
    = (mapT (fun _ t => from_binary_shares g
        (((g t : ℤ) % 2), ((g (t + 1) : ℤ) % 2), ((g (t + 2) : ℤ) % 2)) n (t + 3))
        (List.range n) t).1 from rfl]
  rw [show reconM n (generate_random_number_and_bits g n t).1.1
    = reconM n (accumBits g 0
        (mapT (fun _ t => from_binary_shares g
          (((g t : ℤ) % 2), ((g (t + 1) : ℤ) % 2), ((g (t + 2) : ℤ) % 2)) n (t + 3))
          (List.range n) t).1
        (fromValue g 0 n
          (mapT (fun _ t => from_binary_shares g
            (((g t : ℤ) % 2), ((g (t + 1) : ℤ) % 2), ((g (t + 2) : ℤ) % 2)) n (t + 3))
            (List.range n) t).2).1
        (fromValue g 0 n
          (mapT (fun _ t => from_binary_shares g
            (((g t : ℤ) % 2), ((g (t + 1) : ℤ) % 2), ((g (t + 2) : ℤ) % 2)) n (t + 3))
            (List.range n) t).2).2).1 from rfl, hrb.2, fromValue_reconM]
  have hmtlen : (mapT (fun _ t => from_binary_shares g
      (((g t : ℤ) % 2), ((g (t + 1) : ℤ) % 2), ((g (t + 2) : ℤ) % 2)) n (t + 3))
      (List.range n) t).1.length = n := by simpa using hms.1
  rw [hmtlen]
  rw [Int.cast_zero, zero_add]
  refine Finset.sum_congr rfl fun j hj => ?_
  have hj' : j < n := Finset.mem_range.mp hj
  have hrecon := reconM_of_numeric n
    (sGet (mapT (fun _ t => from_binary_shares g
      (((g t : ℤ) % 2), ((g (t + 1) : ℤ) % 2), ((g (t + 2) : ℤ) % 2)) n (t + 3))
      (List.range n) t).1 j)
    ((hms.2 j (by simpa using hj')).1)
  rw [show (0 : ℕ) + j = j from by omega, hrecon]
  push_cast
  ring

end SharemindSecret

open SharemindSecret in
/-- C3: for every power-of-two size `n = 2^K` and every pair of length-`n`
vectors of size-`n` arithmetic bit-shares (each element reconstructing to 0 or
1), the output of `bitwise_addition` reconstructs, as the little-endian sum
`Σ reconstruct(w_i)·2^i`, to `(reconstruct(u) + reconstruct(v)) mod 2^n`. -/
theorem C3_bitwise_add_correct (g : RS) (n K : ℕ) (hn : n = 2 ^ K)
    (u v : List SharemindSecret) (t : ℕ)
    (hul : u.length = n) (hvl : v.length = n)
    (hus : ∀ i < n, (sGet u i).size = n) (hvs : ∀ i < n, (sGet v i).size = n)
    (hub : ∀ i < n, (sGet u i).numeric_value = 0 ∨ (sGet u i).numeric_value = 1)
    (hvb : ∀ i < n, (sGet v i).numeric_value = 0 ∨ (sGet v i).numeric_value = 1) :
    ∑ i ∈ Finset.range n, (sGet (bitwise_addition g u v t).1 i).numeric_value * 2 ^ i
      = ((∑ i ∈ Finset.range n, (sGet u i).numeric_value * 2 ^ i)
        + (∑ i ∈ Finset.range n, (sGet v i).numeric_value * 2 ^ i))
          % ((2 ^ n : ℕ) : ℤ) := by
  have hspec := bitwise_addition_spec g n K hn u v t hul hvl hus hvs hub hvb
  have hM : ((2 ^ n : ℕ) : ℤ) = (2 : ℤ) ^ n := by push_cast; ring
  have hsum : ∑ i ∈ Finset.range n,
      (sGet (bitwise_addition g u v t).1 i).numeric_value * 2 ^ i
      = ∑ i ∈ Finset.range n, wbitZ (fun j => (sGet u j).numeric_value)
          (fun j => (sGet v j).numeric_value) i * 2 ^ i :=
    Finset.sum_congr rfl fun i hi => by
      rw [(hspec.2 i (Finset.mem_range.mp hi)).2]
  have hwbit : ∀ i < n,
      wbitZ (fun j => (sGet u j).numeric_value) (fun j => (sGet v j).numeric_value) i = 0 ∨
      wbitZ (fun j => (sGet u j).numeric_value) (fun j => (sGet v j).numeric_value) i = 1 :=
    fun i hi => wbitZ_bit _ _ i (hub i hi) (hvb i hi)
  have h0 := bitsum_nonneg (wbitZ (fun j => (sGet u j).numeric_value)
    (fun j => (sGet v j).numeric_value)) n hwbit
  have h1 := bitsum_lt (wbitZ (fun j => (sGet u j).numeric_value)
    (fun j => (sGet v j).numeric_value)) n hwbit
  have hws := wbitZ_sum (fun j => (sGet u j).numeric_value)
    (fun j => (sGet v j).numeric_value) n
  rw [hsum]
  have hre : (∑ i ∈ Finset.range n, (sGet u i).numeric_value * 2 ^ i)
      + (∑ i ∈ Finset.range n, (sGet v i).numeric_value * 2 ^ i)
      = (∑ i ∈ Finset.range n, wbitZ (fun j => (sGet u j).numeric_value)
          (fun j => (sGet v j).numeric_value) i * 2 ^ i)
        + ((2 ^ n : ℕ) : ℤ) * carrySeq (fun j => (sGet u j).numeric_value)
            (fun j => (sGet v j).numeric_value) n := by
    rw [hws, hM]
    ring
  rw [hre, Int.add_mul_emod_self_left, Int.emod_eq_of_lt h0 (by rw [hM]; exact h1)]

open SharemindSecret in
/-- Witness for C3 at `n = 1` (`K = 0`): adding the one-bit vectors `[1]` and
`[1]` gives the vector reconstructing to `(1 + 1) mod 2`. -/
theorem C3_bitwise_add_correct_witness :
    ∑ i ∈ Finset.range 1,
      (sGet (bitwise_addition (fun _ => 0) [⟨1, 1, 0, 0⟩] [⟨1, 1, 0, 0⟩] 0).1 i).numeric_value
        * 2 ^ i
      = ((∑ i ∈ Finset.range 1, (sGet [(⟨1, 1, 0, 0⟩ : SharemindSecret)] i).numeric_value * 2 ^ i)
        + (∑ i ∈ Finset.range 1, (sGet [(⟨1, 1, 0, 0⟩ : SharemindSecret)] i).numeric_value * 2 ^ i))
          % ((2 ^ 1 : ℕ) : ℤ) :=
  C3_bitwise_add_correct (fun _ => 0) 1 0 rfl [⟨1, 1, 0, 0⟩] [⟨1, 1, 0, 0⟩] 0 rfl rfl
    (fun i hi => by interval_cases i <;> rfl)
    (fun i hi => by interval_cases i <;> rfl)
    (fun i hi => by interval_cases i <;> exact Or.inr (by decide))
    (fun i hi => by interval_cases i <;> exact Or.inr (by decide))

namespace SharemindSecret

lemma range_getD (n j : ℕ) (h : j < n) : (List.range n).getD j 0 = j := by
  rw [List.getD_eq_getElem?_getD, List.getElem?_range h]
  rfl

lemma cast_two_pow_zmod (n : ℕ) : (((2 : ℤ) ^ n : ℤ) : ZMod (2 ^ n)) = 0 := by
  rw [show ((2 : ℤ) ^ n) = ((2 ^ n : ℕ) : ℤ) from by push_cast; ring]
  rw [Int.cast_natCast, ZMod.natCast_self]

/-- Full specification of `extract_bits`: for a power-of-two size `n = 2^K`
and a secret `x` of size `n`, the result is a length-`n` vector of size-`n`
bit sharings whose little-endian weighted sum of reconstructions equals the
reconstruction of `x`. -/
lemma extract_bits_spec (g : RS) (n K : ℕ) (hn : n = 2 ^ K) (x : SharemindSecret)
    (hx : x.size = n) (t : ℕ) :
    (extract_bits g x t).1.length = n ∧
    (∀ i < n, (sGet (extract_bits g x t).1 i).size = n ∧
      ((sGet (extract_bits g x t).1 i).numeric_value = 0 ∨
       (sGet (extract_bits g x t).1 i).numeric_value = 1)) ∧
    ∑ i ∈ Finset.range n, (sGet (extract_bits g x t).1 i).numeric_value * 2 ^ i
      = x.numeric_value := by
  have hn1 : 1 ≤ n := by rw [hn]; exact Nat.one_le_two_pow
  have hM : ((2 ^ n : ℕ) : ℤ) = (2 : ℤ) ^ n := by push_cast; ring
  simp only [extract_bits, hx]
  set RRB := generate_random_number_and_bits g n t with hRRB
  set A := sub g x RRB.1.1 RRB.2 with hA
  set AB := mapT (fun i t =>
    from_binary_shares g ((A.1.numeric_value / 2 ^ i % 2), 0, 0) n t)
    (List.range n) A.2 with hAB
  have hg := generate_random_number_and_bits_spec g n hn1 t
  have habs := mapT_spec (fun i t =>
      from_binary_shares g ((A.1.numeric_value / 2 ^ i % 2), 0, 0) n t)
    (fun i s => s.size = n ∧ s.numeric_value = A.1.numeric_value / 2 ^ i % 2)
    (by
      intro i t'
      refine ⟨from_binary_shares_size g _ n t', ?_⟩
      have hbit : A.1.numeric_value / 2 ^ i % 2 = 0 ∨
          A.1.numeric_value / 2 ^ i % 2 = 1 := Int.emod_two_eq_zero_or_one _
      have hfb := from_binary_shares_bit_numeric g n hn1
        (A.1.numeric_value / 2 ^ i % 2) 0 0 hbit (Or.inl rfl) (Or.inl rfl) t'
      rw [hfb]
      rcases hbit with h | h <;> rw [h] <;> decide)
    (List.range n) A.2
  have hablen : AB.1.length = n := by
    rw [hAB]
    simpa using habs.1
  have habs' : ∀ i < n, (sGet AB.1 i).size = n ∧
      (sGet AB.1 i).numeric_value = A.1.numeric_value / 2 ^ i % 2 := by
    intro i hi
    have h := habs.2 i (by simpa using hi)
    rw [range_getD n i hi] at h
    exact h
  have habit : ∀ i < n, (sGet AB.1 i).numeric_value = 0 ∨
      (sGet AB.1 i).numeric_value = 1 := by
    intro i hi
    rw [(habs' i hi).2]
    exact Int.emod_two_eq_zero_or_one _
  have hbspec := bitwise_addition_spec g n K hn AB.1 RRB.1.2 AB.2 hablen hg.1
    (fun i hi => (habs' i hi).1) (fun i hi => (hg.2.1 i hi).1)
    habit (fun i hi => (hg.2.1 i hi).2)
  refine ⟨hbspec.1, ?_, ?_⟩
  · intro i hi
    refine ⟨(hbspec.2 i hi).1, ?_⟩
    rw [(hbspec.2 i hi).2]
    exact wbitZ_bit _ _ i (habit i hi) ((hg.2.1 i hi).2)
  · -- the weighted sum of the output bits equals the reconstruction of x
    have hwbit : ∀ i < n,
        wbitZ (fun j => (sGet AB.1 j).numeric_value)
          (fun j => (sGet RRB.1.2 j).numeric_value) i = 0 ∨
        wbitZ (fun j => (sGet AB.1 j).numeric_value)
          (fun j => (sGet RRB.1.2 j).numeric_value) i = 1 :=
      fun i hi => wbitZ_bit _ _ i (habit i hi) ((hg.2.1 i hi).2)
    have hsum : ∑ i ∈ Finset.range n,
        (sGet (bitwise_addition g AB.1 RRB.1.2 AB.2).1 i).numeric_value * 2 ^ i
        = ∑ i ∈ Finset.range n, wbitZ (fun j => (sGet AB.1 j).numeric_value)
            (fun j => (sGet RRB.1.2 j).numeric_value) i * 2 ^ i :=
      Finset.sum_congr rfl fun i hi => by
        rw [(hbspec.2 i (Finset.mem_range.mp hi)).2]
    have hws := wbitZ_sum (fun j => (sGet AB.1 j).numeric_value)
      (fun j => (sGet RRB.1.2 j).numeric_value) n
    -- the a-side digit sum reassembles the revealed value
    have hasum : ∑ i ∈ Finset.range n, (sGet AB.1 i).numeric_value * 2 ^ i
        = A.1.numeric_value := by
      have h1 : ∑ i ∈ Finset.range n, (sGet AB.1 i).numeric_value * 2 ^ i
          = ∑ i ∈ Finset.range n, (A.1.numeric_value / 2 ^ i % 2) * 2 ^ i :=
        Finset.sum_congr rfl fun i hi => by
          rw [(habs' i (Finset.mem_range.mp hi)).2]
      rw [h1, digit_sum n A.1.numeric_value (numeric_value_nonneg A.1)]
      have hlt := numeric_value_lt A.1
      have hAsize : A.1.size = n := by rw [hA, sub_size, hx]
      rw [hAsize] at hlt
      rw [← hM]
      exact Int.emod_eq_of_lt (numeric_value_nonneg A.1) hlt
    -- reconstruction-level bookkeeping in ZMod (2^n)
    have hAsize : A.1.size = n := by rw [hA, sub_size, hx]
    have hArec : reconM n A.1 = reconM n x - reconM n RRB.1.1 := by
      rw [hA]
      exact sub_reconM g n x RRB.1.1 hx RRB.2
    have hrrec : reconM n RRB.1.1
        = ((∑ j ∈ Finset.range n, (sGet RRB.1.2 j).numeric_value * 2 ^ j : ℤ)
            : ZMod (2 ^ n)) := by
      rw [hg.2.2.2]
      push_cast
      rfl
    have hcast : ((∑ i ∈ Finset.range n,
        (sGet (bitwise_addition g AB.1 RRB.1.2 AB.2).1 i).numeric_value * 2 ^ i : ℤ)
          : ZMod (2 ^ n))
        = ((x.numeric_value : ℤ) : ZMod (2 ^ n)) := by
      rw [hsum, hws, hasum]
      push_cast [cast_two_pow_zmod]
      rw [← reconM_of_numeric n A.1 hAsize, hArec, reconM_of_numeric n x hx, hrrec]
      push_cast
      have h20 : ((2 : ZMod (2 ^ n)) ^ n) = 0 := by
        have h := ZMod.natCast_self (2 ^ n)
        push_cast at h
        exact h
      rw [h20]
      ring
    have hout0 := bitsum_nonneg _ n hwbit
    have hout1 := bitsum_lt _ n hwbit
    rw [hsum]
    rw [hsum] at hcast
    exact int_eq_of_cast_eq hout0 (by rw [hM]; exact hout1)
      (numeric_value_nonneg x) (by have := numeric_value_lt x; rwa [hx] at this) hcast

end SharemindSecret

open SharemindSecret in
/-- C4: for every power-of-two size `n = 2^K` and every secret `x` of size
`n`, `extract_bits x` returns `n` secrets `b_0 … b_{n-1}` with each
`reconstruct(b_i) ∈ {0,1}` and `Σ_i reconstruct(b_i)·2^i = reconstruct(x)`. -/
theorem C4_extract_bits_roundtrip (g : RS) (n K : ℕ) (hn : n = 2 ^ K)
    (x : SharemindSecret) (hx : x.size = n) (t : ℕ) :
    (extract_bits g x t).1.length = n ∧
    (∀ i < n, (sGet (extract_bits g x t).1 i).numeric_value = 0 ∨
              (sGet (extract_bits g x t).1 i).numeric_value = 1) ∧
    ∑ i ∈ Finset.range n, (sGet (extract_bits g x t).1 i).numeric_value * 2 ^ i
      = x.numeric_value := by
  have h := extract_bits_spec g n K hn x hx t
  exact ⟨h.1, fun i hi => (h.2.1 i hi).2, h.2.2⟩

open SharemindSecret in
/-- Witness for C4 at `n = 2` (`K = 1`), `x` sharing 3, zero stream. -/
theorem C4_extract_bits_roundtrip_witness :
    (extract_bits (fun _ => 0) ⟨2, 3, 0, 0⟩ 0).1.length = 2 ∧
    (∀ i < 2, (sGet (extract_bits (fun _ => 0) ⟨2, 3, 0, 0⟩ 0).1 i).numeric_value = 0 ∨
              (sGet (extract_bits (fun _ => 0) ⟨2, 3, 0, 0⟩ 0).1 i).numeric_value = 1) ∧
    ∑ i ∈ Finset.range 2,
      (sGet (extract_bits (fun _ => 0) ⟨2, 3, 0, 0⟩ 0).1 i).numeric_value * 2 ^ i
      = (⟨2, 3, 0, 0⟩ : SharemindSecret).numeric_value :=
  C4_extract_bits_roundtrip (fun _ => 0) 2 1 rfl ⟨2, 3, 0, 0⟩ rfl 0

open SharemindSecret in
/-- C2: for every power-of-two size `n = 2^K` and secrets `x, y` of size `n`
whose plaintexts lie in `[0, 2^(n-1))`, the greater-than-equal protocol
returns a secret reconstructing to 1 if `reconstruct(x) ≥ reconstruct(y)` and
to 0 otherwise. -/
theorem C2_gte_correct (g : RS) (n K : ℕ) (hn : n = 2 ^ K) (x y : SharemindSecret)
    (hx : x.size = n) (hy : y.size = n)
    (hxr : x.numeric_value < ((2 ^ (n - 1) : ℕ) : ℤ))
    (hyr : y.numeric_value < ((2 ^ (n - 1) : ℕ) : ℤ)) (t : ℕ) :
    (ge g x y t).1.numeric_value
      = if y.numeric_value ≤ x.numeric_value then 1 else 0 := by
  have hn1 : 1 ≤ n := by rw [hn]; exact Nat.one_le_two_pow
  have hMn : ((2 ^ n : ℕ) : ℤ) = 2 * ((2 ^ (n - 1) : ℕ) : ℤ) := by
    rw [show n = (n - 1) + 1 from by omega]
    push_cast
    ring
  have hA2 : ((2 ^ (n - 1) : ℕ) : ℤ) = (2 : ℤ) ^ (n - 1) := by push_cast; ring
  have h2n := one_lt_cast_two_pow n hn1
  simp only [ge, hx]
  set D := sub g x y t with hD
  set DB := extract_bits g D.1 D.2 with hDB
  set ONE := fromValue g 1 n DB.2 with hONE
  have hDsize : D.1.size = n := by rw [hD, sub_size, hx]
  have hdb := extract_bits_spec g n K hn D.1 hDsize D.2
  rw [← hDB] at hdb
  have hDnum : D.1.numeric_value
      = (x.numeric_value - y.numeric_value) % ((2 ^ n : ℕ) : ℤ) := by
    have h1 : reconM n D.1 = ((x.numeric_value - y.numeric_value : ℤ) : ZMod (2 ^ n)) := by
      rw [hD, sub_reconM g n x y hx t, reconM_of_numeric n x hx, reconM_of_numeric n y hy]
      push_cast
      ring
    exact numeric_of_reconM_mod n D.1 hDsize _ h1
  have hx0 := numeric_value_nonneg x
  have hy0 := numeric_value_nonneg y
  have hDval : (y.numeric_value ≤ x.numeric_value ∧
      D.1.numeric_value = x.numeric_value - y.numeric_value) ∨
      (x.numeric_value < y.numeric_value ∧
      D.1.numeric_value = x.numeric_value - y.numeric_value + ((2 ^ n : ℕ) : ℤ)) := by
    by_cases hc : y.numeric_value ≤ x.numeric_value
    · refine Or.inl ⟨hc, ?_⟩
      rw [hDnum]
      exact Int.emod_eq_of_lt (by omega) (by omega)
    · refine Or.inr ⟨by omega, ?_⟩
      rw [hDnum]
      calc (x.numeric_value - y.numeric_value) % ((2 ^ n : ℕ) : ℤ)
          = (x.numeric_value - y.numeric_value + ((2 ^ n : ℕ) : ℤ)) % ((2 ^ n : ℕ) : ℤ) :=
            (Int.add_emod_self).symm
        _ = x.numeric_value - y.numeric_value + ((2 ^ n : ℕ) : ℤ) :=
            Int.emod_eq_of_lt (by omega) (by omega)
  have hlen := hdb.1
  have hsplit : ∑ i ∈ Finset.range n, (sGet DB.1 i).numeric_value * 2 ^ i
      = (∑ i ∈ Finset.range (n - 1), (sGet DB.1 i).numeric_value * 2 ^ i)
        + (sGet DB.1 (n - 1)).numeric_value * 2 ^ (n - 1) := by
    have h := Finset.sum_range_succ
      (fun i => (sGet DB.1 i).numeric_value * 2 ^ i) (n - 1)
    rw [show (n - 1) + 1 = n from by omega] at h
    exact h
  have hlow0 := bitsum_nonneg (fun i => (sGet DB.1 i).numeric_value) (n - 1)
    (fun i hi => (hdb.2.1 i (by omega)).2)
  have hlow1 := bitsum_lt (fun i => (sGet DB.1 i).numeric_value) (n - 1)
    (fun i hi => (hdb.2.1 i (by omega)).2)
  rw [← hA2] at hlow1
  have hlow0' : 0 ≤ ∑ i ∈ Finset.range (n - 1), (sGet DB.1 i).numeric_value * 2 ^ i :=
    hlow0
  have hlow1' : ∑ i ∈ Finset.range (n - 1), (sGet DB.1 i).numeric_value * 2 ^ i
      < ((2 ^ (n - 1) : ℕ) : ℤ) := hlow1
  have hβ := (hdb.2.1 (n - 1) (by omega)).2
  have hsum := hdb.2.2
  rw [hsplit] at hsum
  have hβval : (sGet DB.1 (n - 1)).numeric_value
      = if y.numeric_value ≤ x.numeric_value then 0 else 1 := by
    rcases hDval with ⟨hc, hDv⟩ | ⟨hc, hDv⟩
    · rw [if_pos hc]
      rcases hβ with h | h
      · exact h
      · exfalso
        rw [h] at hsum
        omega
    · rw [if_neg (by omega)]
      rcases hβ with h | h
      · exfalso
        rw [h] at hsum
        omega
      · exact h
  rw [hlen]
  have hbitsize : (sGet DB.1 (n - 1)).size = n := (hdb.2.1 (n - 1) (by omega)).1
  have hrec : reconM n (sub g ONE.1 (sGet DB.1 (n - 1)) ONE.2).1
      = ((1 - (sGet DB.1 (n - 1)).numeric_value : ℤ) : ZMod (2 ^ n)) := by
    rw [sub_reconM g n ONE.1 (sGet DB.1 (n - 1)) (by rw [hONE]; exact fromValue_size g 1 n DB.2)
        ONE.2, hONE, fromValue_reconM, reconM_of_numeric n _ hbitsize]
    push_cast
    ring
  have hnum := numeric_of_reconM_eq n _ (by rw [sub_size, hONE]; exact fromValue_size g 1 n DB.2)
    _ (by rcases hβ with h | h <;> rw [h] <;> norm_num)
    (by rcases hβ with h | h <;> rw [h] <;> omega) hrec
  rw [hnum, hβval]
  by_cases hc : y.numeric_value ≤ x.numeric_value
  · rw [if_pos hc, if_pos hc]
    norm_num
  · rw [if_neg hc, if_neg hc]
    norm_num

/-- The failure taxonomy: assertion and argument errors raised by the source
(`OutOfRange`/`BadShare` for the constructor asserts, `SizeMismatch` for the
length/size asserts of `bitwise_addition`, `IndexError` for `u_bits[0]` on an
empty list, `ValueError` when neither value nor shares is given). -/
inductive SmError where
  | outOfRange
  | badShare
  | sizeMismatch
  | indexError
  | valueError
deriving Repr, DecidableEq

namespace SharemindSecret

/-- List indexing into an integer list with default 0 (all uses in range). -/
def sGetZ (l : List ℤ) (i : ℕ) : ℤ := l.getD i 0

/-- `SharemindSecret.__init__` with its assertions made explicit: from a
value, assert `0 <= value < mod` (else `OutOfRange`); from a share list,
assert all shares in range and then that exactly 3 were given (else
`BadShare`, checked in source order); with neither, raise (`ValueError`). -/
def init_checked (g : RS) (value : Option ℤ) (shares : Option (List ℤ))
    (size : ℕ) (t : ℕ) : Except SmError (SharemindSecret × ℕ) :=
  let mod : ℤ := ((2 ^ size : ℕ) : ℤ)
  match value with
  | some v =>
    if 0 ≤ v ∧ v < mod then .ok (fromValue g v size t)
    else .error .outOfRange
  | none =>
    match shares with
    | some l =>
      if ∀ z ∈ l, 0 ≤ z ∧ z < mod then
        if l.length = 3 then .ok (⟨size, sGetZ l 0, sGetZ l 1, sGetZ l 2⟩, t)
        else .error .badShare
      else .error .badShare
    | none => .error .valueError

/-- `bitwise_addition` with its entry assertions made explicit: `u_bits[0]`
raises on an empty list, then
`assert len(u_bits) == len(v_bits) == size` and the per-pair size check
raise `SizeMismatch`; the body itself performs no further checks. -/
def bitwise_addition_checked (g : RS) (u_bits v_bits : List SharemindSecret)
    (t : ℕ) : Except SmError (List SharemindSecret × ℕ) :=
  match u_bits with
  | [] => .error .indexError
  | u0 :: _ =>
    if u_bits.length = v_bits.length ∧ v_bits.length = u0.size then
      if ∀ p ∈ u_bits.zip v_bits, p.1.size = u0.size ∧ p.2.size = u0.size then
        .ok (bitwise_addition g u_bits v_bits t)
      else .error .sizeMismatch
    else .error .sizeMismatch

end SharemindSecret

open SharemindSecret in
/-- C8 counterexample: with size `n = 3` — not a power of two — and perfectly
well-formed length-3 inputs of size-3 bit-shares, `bitwise_addition` does NOT
raise any error: it returns a value.  The claim that it fails with
`SizeMismatch` whenever `n` is not a power of two is false on the code, which
never checks power-of-two-ness. -/
theorem C8_counterexample :
    (¬ ∃ k : ℕ, 3 = 2 ^ k) ∧
    (bitwise_addition_checked (fun _ => 0)
      [⟨3, 0, 0, 0⟩, ⟨3, 0, 0, 0⟩, ⟨3, 0, 0, 0⟩]
      [⟨3, 0, 0, 0⟩, ⟨3, 0, 0, 0⟩, ⟨3, 0, 0, 0⟩] 0).isOk = true := by
  constructor
  · rintro ⟨k, hk⟩
    have hk2 : k < 2 := by
      by_contra h
      have h4 : (2 : ℕ) ^ 2 ≤ 2 ^ k := Nat.pow_le_pow_right (by norm_num) (by omega)
      omega
    interval_cases k <;> omega
  · decide

open SharemindSecret in
/-- C8 amended: `bitwise_addition` raises exactly when its entry assertions
fail — the input list is empty (`u_bits[0]` raises), or the two lengths and
the common share size disagree, or some element has a different size.  It
never checks that the size is a power of two; whenever the length/size
assertions hold it returns a value, power of two or not. -/
theorem C8_bitwise_add_error_conditions (g : RS) (u_bits v_bits : List SharemindSecret)
    (t : ℕ) :
    (bitwise_addition_checked g u_bits v_bits t).isOk = true
      ↔ (u_bits ≠ [] ∧ u_bits.length = v_bits.length ∧
          v_bits.length = (sGet u_bits 0).size ∧
          ∀ p ∈ u_bits.zip v_bits,
            p.1.size = (sGet u_bits 0).size ∧ p.2.size = (sGet u_bits 0).size) := by
  match u_bits with
  | [] =>
    constructor
    · intro h
      exact absurd h (by rw [bitwise_addition_checked]; decide)
    · intro h
      exact absurd rfl h.1
  | u0 :: us =>
    have h0 : sGet (u0 :: us) 0 = u0 := rfl
    rw [bitwise_addition_checked, h0]
    constructor
    · intro h
      by_cases hc1 : (u0 :: us).length = v_bits.length ∧ v_bits.length = u0.size
      · rw [if_pos hc1] at h
        by_cases hc2 : ∀ p ∈ (u0 :: us).zip v_bits, p.1.size = u0.size ∧ p.2.size = u0.size
        · exact ⟨by simp, hc1.1, hc1.2, hc2⟩
        · rw [if_neg hc2] at h
          exact absurd h (by decide)
      · rw [if_neg hc1] at h
        exact absurd h (by decide)
    · rintro ⟨h1, h2, h3, h4⟩
      rw [if_pos ⟨h2, h3⟩, if_pos h4]
      rfl

open SharemindSecret in
/-- C9: construction from a plaintext value `v` fails with `OutOfRange`
exactly when `v ∉ [0, 2^n)`; on success it samples `u1, u2` (uniform in
`[0, 2^n)` as the stream ranges over all values) and sets
`u3 = (v - u1 - u2) mod 2^n`, and the secret reconstructs to `v`.
Construction from an explicit share list fails with `BadShare` exactly when
some share is out of range or the length is not 3; on success the secret
reconstructs to the share sum mod `2^n`. -/
theorem C9_init_error_conditions (g : RS) (n : ℕ) (v : ℤ) (l : List ℤ) (t : ℕ) :
    ((init_checked g (some v) none n t).isOk = true
      ↔ (0 ≤ v ∧ v < ((2 ^ n : ℕ) : ℤ))) ∧
    (¬ (0 ≤ v ∧ v < ((2 ^ n : ℕ) : ℤ)) →
      init_checked g (some v) none n t = .error .outOfRange) ∧
    (0 ≤ v → v < ((2 ^ n : ℕ) : ℤ) →
      init_checked g (some v) none n t
        = .ok (⟨n, sample g t n, sample g (t + 1) n,
            (v - sample g t n - sample g (t + 1) n) % ((2 ^ n : ℕ) : ℤ)⟩, t + 2) ∧
      (fromValue g v n t).1.numeric_value = v) ∧
    ((init_checked g none (some l) n t).isOk = true
      ↔ ((∀ z ∈ l, 0 ≤ z ∧ z < ((2 ^ n : ℕ) : ℤ)) ∧ l.length = 3)) ∧
    (¬ ((∀ z ∈ l, 0 ≤ z ∧ z < ((2 ^ n : ℕ) : ℤ)) ∧ l.length = 3) →
      init_checked g none (some l) n t = .error .badShare) ∧
    ((∀ z ∈ l, 0 ≤ z ∧ z < ((2 ^ n : ℕ) : ℤ)) → l.length = 3 →
      init_checked g none (some l) n t = .ok (⟨n, sGetZ l 0, sGetZ l 1, sGetZ l 2⟩, t) ∧
      (⟨n, sGetZ l 0, sGetZ l 1, sGetZ l 2⟩ : SharemindSecret).numeric_value
        = (sGetZ l 0 + sGetZ l 1 + sGetZ l 2) % ((2 ^ n : ℕ) : ℤ)) := by
  refine ⟨?_, ?_, ?_, ?_, ?_, ?_⟩
  · rw [init_checked]
    constructor
    · intro h
      by_cases hc : 0 ≤ v ∧ v < ((2 ^ n : ℕ) : ℤ)
      · exact hc
      · rw [if_neg hc] at h
        exact absurd h (by decide)
    · intro hc
      rw [if_pos hc]
      rfl
  · intro hc
    rw [init_checked, if_neg hc]
  · intro h1 h2
    constructor
    · rw [init_checked, if_pos ⟨h1, h2⟩]
      rfl
    · have hrec := fromValue_reconM g v n t
      exact numeric_of_reconM_eq n _ (fromValue_size g v n t) v h1 h2 hrec
  · rw [init_checked]
    constructor
    · intro h
      by_cases hc1 : ∀ z ∈ l, 0 ≤ z ∧ z < ((2 ^ n : ℕ) : ℤ)
      · by_cases hc2 : l.length = 3
        · exact ⟨hc1, hc2⟩
        · rw [if_pos hc1, if_neg hc2] at h
          exact absurd h (by decide)
      · rw [if_neg hc1] at h
        exact absurd h (by decide)
    · intro ⟨hc1, hc2⟩
      rw [if_pos hc1, if_pos hc2]
      rfl
  · intro hc
    rw [init_checked]
    by_cases hc1 : ∀ z ∈ l, 0 ≤ z ∧ z < ((2 ^ n : ℕ) : ℤ)
    · rw [if_pos hc1, if_neg (fun hlen => hc ⟨hc1, hlen⟩)]
    · rw [if_neg hc1]
  · intro hc1 hc2
    refine ⟨by rw [init_checked, if_pos hc1, if_pos hc2], rfl⟩

open SharemindSecret in
/-- Witness for C9: `v = 5` is accepted at `n = 4` and reconstructs to 5;
the explicit triple `[1, 2, 3]` is accepted. -/
theorem C9_init_error_conditions_witness :
    (init_checked (fun _ => 0) (some 5) none 4 0).isOk = true ∧
    (init_checked (fun _ => 0) none (some [1, 2, 3]) 4 0).isOk = true ∧
    (fromValue (fun _ => 0) 5 4 0).1.numeric_value = 5 :=
  ⟨(C9_init_error_conditions (fun _ => 0) 4 5 [1, 2, 3] 0).1.mpr (by decide),
   (C9_init_error_conditions (fun _ => 0) 4 5 [1, 2, 3] 0).2.2.2.1.mpr (by decide),
   ((C9_init_error_conditions (fun _ => 0) 4 5 [1, 2, 3] 0).2.2.1 (by decide)
     (by decide)).2⟩

namespace SharemindSecret

/-- All three shares lie in `[0, 2^size)` (the data-model invariant; the
"exactly three shares" part is structural in this embedding — the record has
exactly the fields `s1, s2, s3`, mirroring the length-3 assertion verified in
`init_checked`). -/
def sharesInRange (x : SharemindSecret) : Prop :=
  0 ≤ x.s1 ∧ x.s1 < ((2 ^ x.size : ℕ) : ℤ) ∧
  0 ≤ x.s2 ∧ x.s2 < ((2 ^ x.size : ℕ) : ℤ) ∧
  0 ≤ x.s3 ∧ x.s3 < ((2 ^ x.size : ℕ) : ℤ)

lemma re_share_range (g : RS) (x : SharemindSecret) (t : ℕ) :
    sharesInRange (re_share g x t).1 := by
  have hpos : (0 : ℤ) < ((2 ^ x.size : ℕ) : ℤ) := by exact_mod_cast two_pow_pos x.size
  exact ⟨Int.emod_nonneg _ hpos.ne', Int.emod_lt_of_pos _ hpos,
    Int.emod_nonneg _ hpos.ne', Int.emod_lt_of_pos _ hpos,
    Int.emod_nonneg _ hpos.ne', Int.emod_lt_of_pos _ hpos⟩

lemma fromValue_range (g : RS) (v : ℤ) (n : ℕ) (t : ℕ) :
    sharesInRange (fromValue g v n t).1 := by
  have hpos : (0 : ℤ) < ((2 ^ n : ℕ) : ℤ) := by exact_mod_cast two_pow_pos n
  exact ⟨Int.emod_nonneg _ hpos.ne', Int.emod_lt_of_pos _ hpos,
    Int.emod_nonneg _ hpos.ne', Int.emod_lt_of_pos _ hpos,
    Int.emod_nonneg _ hpos.ne', Int.emod_lt_of_pos _ hpos⟩

lemma sGet_mem (l : List SharemindSecret) (i : ℕ) (h : i < l.length) :
    sGet l i ∈ l := by
  rw [sGet, List.getD_eq_getElem?_getD, List.getElem?_eq_getElem h]
  exact List.getElem_mem h

lemma mapT_forall (f : ℕ → ℕ → SharemindSecret × ℕ) (P : SharemindSecret → Prop)
    (hf : ∀ i t, P (f i t).1) : ∀ (l : List ℕ) (t : ℕ), ∀ s ∈ (mapT f l t).1, P s := by
  intro l
  induction l with
  | nil => intro t s hs; exact absurd hs (List.not_mem_nil s)
  | cons i0 is ih =>
    intro t s hs
    have hmt : (mapT f (i0 :: is) t).1 = (f i0 t).1 :: (mapT f is (f i0 t).2).1 := rfl
    rw [hmt] at hs
    rcases List.mem_cons.mp hs with h | h
    · rw [h]; exact hf i0 t
    · exact ih (f i0 t).2 s h

lemma bitwise_addition_forall (g : RS) (u v : List SharemindSecret) (t : ℕ) :
    ∀ s ∈ (bitwise_addition g u v t).1, sharesInRange s := by
  simp only [bitwise_addition]
  intro s hs
  rcases List.mem_cons.mp hs with h | h
  · rw [h]; exact re_share_range g _ _
  · exact mapT_forall _ sharesInRange (fun i t' => re_share_range g _ _) _ _ s h

lemma bitwise_addition_range (g : RS) (u v : List SharemindSecret) (t : ℕ) :
    ∀ i < (bitwise_addition g u v t).1.length,
      sharesInRange (sGet (bitwise_addition g u v t).1 i) := by
  intro i hi
  exact bitwise_addition_forall g u v t _ (sGet_mem _ _ hi)

end SharemindSecret

open SharemindSecret in
/-- C10: every secret produced by the core operations — construction from a
value, reshare, addition, subtraction, scalar multiplication, secure
multiplication, binary-to-arithmetic conversion, the elements returned by
`extract_bits` and `bitwise_addition`, and GTE — carries the size of its
operands and has all its shares in `[0, 2^size)`.  (Having exactly three
shares is structural in the embedding: the record holds exactly `s1, s2, s3`,
matching the length-3 constructor assertion verified with C9.) -/
theorem C10_share_triple_invariant (g : RS) (n K : ℕ) (hn : n = 2 ^ K)
    (x y : SharemindSecret) (v k : ℤ) (sh : ℤ × ℤ × ℤ)
    (u_bits v_bits : List SharemindSecret) (t : ℕ)
    (hx : x.size = n) (hy : y.size = n)
    (hul : u_bits.length = n) (hvl : v_bits.length = n)
    (hus : ∀ i < n, (sGet u_bits i).size = n) (hvs : ∀ i < n, (sGet v_bits i).size = n)
    (hub : ∀ i < n, (sGet u_bits i).numeric_value = 0 ∨ (sGet u_bits i).numeric_value = 1)
    (hvb : ∀ i < n, (sGet v_bits i).numeric_value = 0 ∨ (sGet v_bits i).numeric_value = 1) :
    ((fromValue g v n t).1.size = n ∧ sharesInRange (fromValue g v n t).1) ∧
    ((re_share g x t).1.size = n ∧ sharesInRange (re_share g x t).1) ∧
    ((add g x y t).1.size = n ∧ sharesInRange (add g x y t).1) ∧
    ((sub g x y t).1.size = n ∧ sharesInRange (sub g x y t).1) ∧
    ((mul_scalar g x k t).1.size = n ∧ sharesInRange (mul_scalar g x k t).1) ∧
    ((mul g x y t).1.size = n ∧ sharesInRange (mul g x y t).1) ∧
    ((from_binary_shares g sh n t).1.size = n ∧
      sharesInRange (from_binary_shares g sh n t).1) ∧
    (∀ i < n, (sGet (extract_bits g x t).1 i).size = n ∧
      sharesInRange (sGet (extract_bits g x t).1 i)) ∧
    (∀ i < n, (sGet (bitwise_addition g u_bits v_bits t).1 i).size = n ∧
      sharesInRange (sGet (bitwise_addition g u_bits v_bits t).1 i)) ∧
    ((ge g x y t).1.size = n ∧ sharesInRange (ge g x y t).1) := by
  have hbspec := bitwise_addition_spec g n K hn u_bits v_bits t hul hvl hus hvs hub hvb
  have hdb := extract_bits_spec g n K hn x hx t
  refine ⟨⟨fromValue_size g v n t, fromValue_range g v n t⟩,
    ⟨by rw [re_share_size, hx], re_share_range g x t⟩,
    ⟨by rw [add_size, hx], re_share_range g _ _⟩,
    ⟨by rw [sub_size, hx], re_share_range g _ _⟩,
    ⟨by rw [mul_scalar_size, hx], re_share_range g _ _⟩,
    ⟨by rw [mul_size, hx], re_share_range g _ _⟩,
    ⟨from_binary_shares_size g sh n t, re_share_range g _ _⟩,
    ?_, ?_, ?_⟩
  · intro i hi
    refine ⟨(hdb.2.1 i hi).1, ?_⟩
    exact bitwise_addition_range g _ _ _ i (by rw [show (bitwise_addition g _ _ _).1.length = n from hdb.1]; exact hi)
  · intro i hi
    exact ⟨(hbspec.2 i hi).1,
      bitwise_addition_range g u_bits v_bits t i (by rw [hbspec.1]; exact hi)⟩
  · exact ⟨by rw [show (ge g x y t).1.size = x.size from rfl, hx], re_share_range g _ _⟩

open SharemindSecret in
/-- Witness for C2 at `n = 2` (`K = 1`): `x` sharing 1, `y` sharing 0, both
below `2^(n-1) = 2`, with GTE reconstructing to 1. -/
theorem C2_gte_correct_witness :
    (ge (fun _ => 0) ⟨2, 1, 0, 0⟩ ⟨2, 0, 0, 0⟩ 0).1.numeric_value
      = if (⟨2, 0, 0, 0⟩ : SharemindSecret).numeric_value
          ≤ (⟨2, 1, 0, 0⟩ : SharemindSecret).numeric_value then 1 else 0 :=
  C2_gte_correct (fun _ => 0) 2 1 rfl ⟨2, 1, 0, 0⟩ ⟨2, 0, 0, 0⟩ rfl rfl
    (by decide) (by decide) 0

open SharemindSecret in
/-- Witness for C10 at `n = 1` (`K = 0`), concrete secrets and bit vectors:
size preservation and share ranges for `mul` and the `extract_bits` elements. -/
theorem C10_share_triple_invariant_witness :
    ((mul (fun _ => 0) ⟨1, 1, 0, 0⟩ ⟨1, 0, 1, 0⟩ 0).1.size = 1 ∧
      sharesInRange (mul (fun _ => 0) ⟨1, 1, 0, 0⟩ ⟨1, 0, 1, 0⟩ 0).1) ∧
    (∀ i < 1, (sGet (extract_bits (fun _ => 0) ⟨1, 1, 0, 0⟩ 0).1 i).size = 1 ∧
      sharesInRange (sGet (extract_bits (fun _ => 0) ⟨1, 1, 0, 0⟩ 0).1 i)) :=
  ⟨(C10_share_triple_invariant (fun _ => 0) 1 0 rfl ⟨1, 1, 0, 0⟩ ⟨1, 0, 1, 0⟩ 0 1 (0, 1, 0)
      [⟨1, 1, 0, 0⟩] [⟨1, 0, 1, 0⟩] 0 rfl rfl rfl rfl
      (fun i hi => by interval_cases i; rfl) (fun i hi => by interval_cases i; rfl)
      (fun i hi => by interval_cases i; exact Or.inr (by decide))
      (fun i hi => by interval_cases i; exact Or.inr (by decide))).2.2.2.2.2.1,
   (C10_share_triple_invariant (fun _ => 0) 1 0 rfl ⟨1, 1, 0, 0⟩ ⟨1, 0, 1, 0⟩ 0 1 (0, 1, 0)
      [⟨1, 1, 0, 0⟩] [⟨1, 0, 1, 0⟩] 0 rfl rfl rfl rfl
      (fun i hi => by interval_cases i; rfl) (fun i hi => by interval_cases i; rfl)
      (fun i hi => by interval_cases i; exact Or.inr (by decide))
      (fun i hi => by interval_cases i; exact Or.inr (by decide))).2.2.2.2.2.2.2.1⟩
